import Mathlib

/-!
Verification of the entity-preserving chunked translation pipeline of the
PDF_TRANSLATOR_BOT repository.  Text is modelled as `List Char` (the model
covers ASCII documents; the regex character classes below are the ASCII
readings of the Python patterns).  Fallible external collaborators (the
translation backend, the extractor, the renderer) are modelled as explicit
oracle parameters returning `Except` values.
-/

set_option maxHeartbeats 1000000

/-! ### Character classes and low-level string helpers -/

/-- Whitespace characters, as in Python's `str.strip` / `\s` (ASCII part). -/
def wsC (c : Char) : Bool :=
  c == ' ' || c == '\t' || c == '\n' || c == '\r' || c == Char.ofNat 11 || c == Char.ofNat 12

/-- Word characters for `\b` (Python `\w`, ASCII part). -/
def wordC (c : Char) : Bool := c.isAlphanum || c == '_'

/-- Sentence-ending punctuation of the chunker's boundary pattern `(?<=[.!?])`. -/
def punctC (c : Char) : Bool := c == '.' || c == '!' || c == '?'

/-- The zero-width space U+200B used by webapp placeholders. -/
def zwb : Char := Char.ofNat 0x200B

/-- The zero-width non-joiner U+200C used by webapp placeholders. -/
def zwc : Char := Char.ofNat 0x200C

/-- The zero-width joiner U+200D used by webapp placeholders. -/
def zwd : Char := Char.ofNat 0x200D

/-- A list of characters entirely in the ASCII range. -/
def AsciiL (l : List Char) : Prop := ∀ c ∈ l, c.toNat < 128

instance : DecidablePred AsciiL := fun l =>
  decidable_of_iff (∀ c ∈ l, c.toNat < 128) Iff.rfl

/-- Character of `t` at index `i`, with `' '` out of range. -/
def charAt (t : List Char) (i : Nat) : Char := t.getD i ' '

/-- Bounds-checked test that the character at `i` is exactly `c`. -/
def isCharAt (t : List Char) (i : Nat) (c : Char) : Bool :=
  decide (i < t.length) && (charAt t i == c)

/-- Bounds-checked character class test at index `i`. -/
def classAt (f : Char → Bool) (t : List Char) (i : Nat) : Bool :=
  decide (i < t.length) && f (charAt t i)

/-- Word-character test at `i` (false out of range). -/
def wordAt (t : List Char) (i : Nat) : Bool := classAt wordC t i

/-- Python's `\b` word-boundary test at position `p` of `t`. -/
def bndAt (t : List Char) (p : Nat) : Bool :=
  ((decide (0 < p)) && wordAt t (p - 1)) != wordAt t p

/-- Length of the maximal run of `f`-characters at the head of a list. -/
def runGo (f : Char → Bool) : List Char → Nat
  | [] => 0
  | c :: r => if f c then runGo f r + 1 else 0

/-- Length of the maximal run of `f`-characters of `t` starting at `p`. -/
def runLen (f : Char → Bool) (t : List Char) (p : Nat) : Nat := runGo f (t.drop p)

/-- The slice `t[s:e]` of Python. -/
def sliceTE (t : List Char) (s e : Nat) : List Char := (t.drop s).take (e - s)

/-- Python's substring test `pat in t`. -/
def containsSub (t pat : List Char) : Bool :=
  (List.range (t.length + 1)).any (fun i => pat.isPrefixOf (t.drop i))

/-- Worker of `pyReplace`: replaces occurrences of `p0 :: ps` left to
right.  The first argument is recursion fuel (each step consumes at least
one character, so fuel equal to the text length is always sufficient; it
is structural so that the function evaluates inside the kernel). -/
def replGo (p0 : Char) (ps rep : List Char) : Nat → List Char → List Char
  | 0, t => t
  | _ + 1, [] => []
  | fuel + 1, c :: rest =>
    if (p0 :: ps).isPrefixOf (c :: rest) then rep ++ replGo p0 ps rep fuel (rest.drop ps.length)
    else c :: replGo p0 ps rep fuel rest

/-- Python's `str.replace(pat, rep)` (all occurrences, left to right,
non-overlapping).  The program only ever calls it with nonempty `pat`;
for `pat = []` we return `t` unchanged. -/
def pyReplace (t pat rep : List Char) : List Char :=
  match pat with
  | [] => t
  | p0 :: ps => replGo p0 ps rep t.length t

/-- `List.dropWhile wsC`, i.e. Python's `str.lstrip()`. -/
def trimL (t : List Char) : List Char := t.dropWhile wsC

/-- Python's `str.strip()` (leading and trailing whitespace removed). -/
def stripWs (t : List Char) : List Char := ((trimL t).reverse.dropWhile wsC).reverse

/-- Worker for `tokens`: `acc` holds the current (reversed) in-progress word. -/
def tokensAux : List Char → List Char → List (List Char)
  | [], acc => if acc = [] then [] else [acc.reverse]
  | c :: t, acc =>
    if wsC c then (if acc = [] then tokensAux t [] else acc.reverse :: tokensAux t [])
    else tokensAux t (c :: acc)

/-- The whitespace-separated words of `t` (Python's `str.split()`). -/
def tokens (t : List Char) : List (List Char) := tokensAux t []

/-- `' '.join(l)` of Python. -/
def joinSpace : List (List Char) → List Char
  | [] => []
  | [c] => c
  | c :: rest => c ++ ' ' :: joinSpace rest

/-- Whitespace normalization: every maximal whitespace run becomes a single
space and outer whitespace is trimmed.  This is the formal reading of the
spec's words "normalizing whitespace"; it is used to compare texts modulo
whitespace. -/
def normalizeWs (t : List Char) : List Char := joinSpace (tokens t)

/-- The decimal digit character of `d` (for `d < 10`). -/
def digChar (d : Nat) : Char := Char.ofNat (48 + d)

/-- Fuelled worker of `decStr` (fuel at least `n` is always sufficient
since the argument at least halves each step). -/
def decStrGo : Nat → Nat → List Char
  | 0, n => [digChar (n % 10)]
  | fuel + 1, n => if n < 10 then [digChar n] else decStrGo fuel (n / 10) ++ [digChar (n % 10)]

/-- The decimal digit string of `n`, as produced by Python string
interpolation of an `int`. -/
def decStr (n : Nat) : List Char := decStrGo n n

/-! ### Regex matchers

Each Python pattern of the repository is embedded as a matcher
`List Char → Nat → Option Nat` returning the end position of the match
attempt anchored at the given start position, with the backtracking
semantics of Python's `re` module specialized to the concrete pattern
(greedy character-class runs followed by a literal outside the class are
forced to be maximal; genuinely branching positions are searched longest
first, as `re` does). -/

/-- Uppercase-letter test at `i`. -/
def upperAt (t : List Char) (i : Nat) : Bool := classAt Char.isUpper t i

/-- Letter test at `i`. -/
def alphaAt (t : List Char) (i : Nat) : Bool := classAt Char.isAlpha t i

/-- Shared tail of the personal-name patterns of the root module:
`[A-Z][a-z]+ [A-Z][a-z]+\b` at position `q` (case sensitive). -/
def nameTail (t : List Char) (q : Nat) : Option Nat :=
  if upperAt t q then
    let r1 := runLen Char.isLower t (q+1)
    if 1 ≤ r1 && isCharAt t (q+1+r1) ' ' && upperAt t (q+2+r1) then
      let r2 := runLen Char.isLower t (q+3+r1)
      if 1 ≤ r2 && bndAt t (q+3+r1+r2) then some (q+3+r1+r2) else none
    else none
  else none

/-- Root pattern 1: `\b[A-Z][a-z]+ [A-Z][a-z]+\b`. -/
def mRootP1 (t : List Char) (p : Nat) : Option Nat :=
  if bndAt t p then nameTail t p else none

/-- Root pattern 2: `\b[A-Z][a-z]+ [A-Z]\. [A-Z][a-z]+\b`. -/
def mRootP2 (t : List Char) (p : Nat) : Option Nat :=
  if bndAt t p && upperAt t p then
    let r1 := runLen Char.isLower t (p+1)
    if 1 ≤ r1 && isCharAt t (p+1+r1) ' ' && upperAt t (p+2+r1) && isCharAt t (p+3+r1) '.'
        && isCharAt t (p+4+r1) ' ' && upperAt t (p+5+r1) then
      let r2 := runLen Char.isLower t (p+6+r1)
      if 1 ≤ r2 && bndAt t (p+6+r1+r2) then some (p+6+r1+r2) else none
    else none
  else none

/-- Root pattern 3: `\b[A-Z]\. [A-Z][a-z]+\b`. -/
def mRootP3 (t : List Char) (p : Nat) : Option Nat :=
  if bndAt t p && upperAt t p && isCharAt t (p+1) '.' && isCharAt t (p+2) ' '
      && upperAt t (p+3) then
    let r := runLen Char.isLower t (p+4)
    if 1 ≤ r && bndAt t (p+4+r) then some (p+4+r) else none
  else none

/-- Root pattern 4: `\bDr\. [A-Z][a-z]+ [A-Z][a-z]+\b`. -/
def mRootP4 (t : List Char) (p : Nat) : Option Nat :=
  if bndAt t p && isCharAt t p 'D' && isCharAt t (p+1) 'r' && isCharAt t (p+2) '.'
      && isCharAt t (p+3) ' ' then nameTail t (p+4)
  else none

/-- Root pattern 5: `\bMr\. [A-Z][a-z]+ [A-Z][a-z]+\b`. -/
def mRootP5 (t : List Char) (p : Nat) : Option Nat :=
  if bndAt t p && isCharAt t p 'M' && isCharAt t (p+1) 'r' && isCharAt t (p+2) '.'
      && isCharAt t (p+3) ' ' then nameTail t (p+4)
  else none

/-- Root pattern 6: `\bMrs\. [A-Z][a-z]+ [A-Z][a-z]+\b`. -/
def mRootP6 (t : List Char) (p : Nat) : Option Nat :=
  if bndAt t p && isCharAt t p 'M' && isCharAt t (p+1) 'r' && isCharAt t (p+2) 's'
      && isCharAt t (p+3) '.' && isCharAt t (p+4) ' ' then nameTail t (p+5)
  else none

/-- Root pattern 7: `\bMs\. [A-Z][a-z]+ [A-Z][a-z]+\b`. -/
def mRootP7 (t : List Char) (p : Nat) : Option Nat :=
  if bndAt t p && isCharAt t p 'M' && isCharAt t (p+1) 's' && isCharAt t (p+2) '.'
      && isCharAt t (p+3) ' ' then nameTail t (p+4)
  else none

/-- Webapp pattern 1 with `re.IGNORECASE`:
`\b[A-Z][a-z]{2,} [A-Z][a-z]{2,}\b` (both classes become any letter). -/
def mW1 (t : List Char) (p : Nat) : Option Nat :=
  if bndAt t p && alphaAt t p then
    let r1 := runLen Char.isAlpha t (p+1)
    if 2 ≤ r1 && isCharAt t (p+1+r1) ' ' && alphaAt t (p+2+r1) then
      let r2 := runLen Char.isAlpha t (p+3+r1)
      if 2 ≤ r2 && bndAt t (p+3+r1+r2) then some (p+3+r1+r2) else none
    else none
  else none

/-- Character class of the email local part `[A-Za-z0-9._%+-]`. -/
def emailLocalC (c : Char) : Bool :=
  c.isAlphanum || c == '.' || c == '_' || c == '%' || c == '+' || c == '-'

/-- Character class of the email domain `[A-Za-z0-9.-]`. -/
def emailDomC (c : Char) : Bool := c.isAlphanum || c == '.' || c == '-'

/-- Character class of the email tail `[A-Z|a-z]` (the literal `|` is part
of the class in the source pattern). -/
def tldC (c : Char) : Bool := c.isAlpha || c == '|'

/-- Backtracking over the `{2,}` tail quantifier of the email pattern:
given the tail start `m` and the remaining repetition budget, try the
longest repetition first and require `\b` after it. -/
def tldLoop (t : List Char) (m : Nat) : Nat → Option Nat
  | 0 => none
  | 1 => none
  | k+2 => if bndAt t (m+k+2) then some (m+k+2) else tldLoop t m (k+1)

/-- Backtracking over the greedy `[A-Za-z0-9.-]+` of the email pattern:
`a` is the domain start and the `Nat` argument the run length to try
(longest first); each tried length must be followed by a literal `.` and a
successful tail match. -/
def domLoop (t : List Char) (a : Nat) : Nat → Option Nat
  | 0 => none
  | j+1 =>
    match (if isCharAt t (a+j+1) '.' then tldLoop t (a+j+2) (runLen tldC t (a+j+2)) else none) with
    | some e => some e
    | none => domLoop t a j

/-- Webapp pattern 2 with `re.IGNORECASE`:
`\b[A-Za-z0-9._%+-]+@[A-Za-z0-9.-]+\.[A-Z|a-z]{2,}\b`. -/
def mW2 (t : List Char) (p : Nat) : Option Nat :=
  if bndAt t p then
    let r := runLen emailLocalC t p
    if 1 ≤ r && isCharAt t (p+r) '@' then
      domLoop t (p+r+1) (runLen emailDomC t (p+r+1))
    else none
  else none

/-- Fuelled worker of `unitEnds` (each unit advances by at least three
positions and stays inside the text, so fuel `t.length - q` suffices). -/
def unitEndsF : Nat → List Char → Nat → List Nat
  | 0, _, _ => []
  | fuel + 1, t, q =>
    if classAt wsC t q then
      if alphaAt t (q+1) && decide (1 ≤ runLen Char.isAlpha t (q+2)) then
        (q + 2 + runLen Char.isAlpha t (q+2)) :: unitEndsF fuel t (q + 2 + runLen Char.isAlpha t (q+2))
      else []
    else []

/-- End positions of the successive units of `(?:\s[A-Z][a-z]+)*` starting
at `q` (greedy parse; with `re.IGNORECASE` each unit is one whitespace
character followed by a maximal letter run of length at least two). -/
def unitEnds (t : List Char) (q : Nat) : List Nat := unitEndsF (t.length - q) t q

/-- The suffix alternatives of the organization pattern, in source order. -/
def sufLits : List (List Char) :=
  ["Inc".toList, "Ltd".toList, "LLC".toList, "Corp".toList,
   "Company".toList, "University".toList, "College".toList]

/-- Case-insensitive literal test at position `i`. -/
def icaseAt (t : List Char) (i : Nat) (lit : List Char) : Bool :=
  decide (i + lit.length ≤ t.length)
    && (((t.drop i).take lit.length).map Char.toLower == lit.map Char.toLower)

/-- Try the suffix alternatives in order at position `i`; an alternative
succeeds when its literal matches case-insensitively and a `\b` follows. -/
def altSuffix (t : List Char) (i : Nat) : List (List Char) → Option Nat
  | [] => none
  | l :: rest =>
    if icaseAt t i l && bndAt t (i + l.length) then some (i + l.length)
    else altSuffix t i rest

/-- One final `\s` followed by a suffix alternative, at position `pos`. -/
def sufTry (t : List Char) (pos : Nat) : Option Nat :=
  if classAt wsC t pos then altSuffix t (pos+1) sufLits else none

/-- Backtracking over the star count of the organization pattern: the
candidate resume positions are tried greedily (most units first). -/
def starBack (t : List Char) : List Nat → Option Nat
  | [] => none
  | pos :: rest =>
    match sufTry t pos with
    | some e => some e
    | none => starBack t rest

/-- Webapp pattern 3 with `re.IGNORECASE`:
`\b[A-Z][a-z]+(?:\s[A-Z][a-z]+)*\s(?:Inc|Ltd|LLC|Corp|Company|University|College)\b`. -/
def mW3 (t : List Char) (p : Nat) : Option Nat :=
  if bndAt t p && alphaAt t p then
    let r1 := runLen Char.isAlpha t (p+1)
    if 1 ≤ r1 then starBack t ((p + 1 + r1) :: unitEnds t (p + 1 + r1)).reverse else none
  else none

/-- Scan worker of `finditerM`: leftmost matches, continuing after the end
of each match (all matchers of this file return strictly positive-length
matches, so the dead `else` branch is never taken).  The scan advances by
at least one position per step, so fuel `t.length + 1` suffices. -/
def fidGo (m : List Char → Nat → Option Nat) (t : List Char) : Nat → Nat → List (Nat × Nat)
  | 0, _ => []
  | fuel + 1, p =>
    if p ≤ t.length then
      match m t p with
      | some e => if p < e then (p, e) :: fidGo m t fuel e else []
      | none => fidGo m t fuel (p+1)
    else []

/-- `re.finditer` for one matcher: the list of `(start, end)` spans. -/
def finditerM (m : List Char → Nat → Option Nat) (t : List Char) : List (Nat × Nat) :=
  fidGo m t (t.length + 1) 0

/-! ### Entity protection and restoration -/

/-- The match stream of the root module's `preserve_names_and_entities`:
all matches of all seven name patterns, in pattern order (no overlap
filtering is performed there). -/
def rootAllMatches (t : List Char) : List (Nat × Nat) :=
  (([mRootP1, mRootP2, mRootP3, mRootP4, mRootP5, mRootP6, mRootP7].map
    (fun m => finditerM m t)).flatten)

/-- The raw match stream of the webapp's `preserve_proper_nouns`, before
overlap discarding: matches of the three patterns in pattern order. -/
def webRawMatches (t : List Char) : List (Nat × Nat) :=
  ([mW1, mW2, mW3].map (fun m => finditerM m t)).flatten

/-- The overlap test of `preserve_proper_nouns`
(`match.start() < existing.end and match.end() > existing.start`). -/
def overlapB (m x : Nat × Nat) : Bool := decide (m.1 < x.2) && decide (m.2 > x.1)

/-- One step of the webapp's overlap-discarding collection loop. -/
def addIfNoOverlap (acc : List (Nat × Nat)) (m : Nat × Nat) : List (Nat × Nat) :=
  if acc.any (fun x => overlapB m x) then acc else acc ++ [m]

/-- The kept matches of `preserve_proper_nouns`: the raw stream filtered so
that a match is kept only if it overlaps no previously kept match. -/
def collectW (t : List Char) : List (Nat × Nat) := (webRawMatches t).foldl addIfNoOverlap []

/-- Stable insertion into a start-descending list (later elements with an
equal key stay after earlier ones, as with Python's stable `list.sort`
with `reverse=True`). -/
def insDesc (m : Nat × Nat) : List (Nat × Nat) → List (Nat × Nat)
  | [] => [m]
  | x :: xs => if x.1 < m.1 then m :: x :: xs else x :: insDesc m xs

/-- `list.sort(key=lambda x: x.start, reverse=True)`. -/
def sortDesc (l : List (Nat × Nat)) : List (Nat × Nat) :=
  l.foldl (fun acc m => insDesc m acc) []

/-- The webapp placeholder `​{counter}‌{original}‍`. -/
def phW (c : Nat) (T : List Char) : List Char :=
  zwb :: (decStr c ++ zwc :: (T ++ [zwd]))

/-- The root placeholder `__NAME_{counter}__`. -/
def phRoot (c : Nat) : List Char := "__NAME_".toList ++ decStr c ++ "__".toList

/-- One replacement step of a protect loop: replace span `(s, e)` of the
current working text by `ph` (`text[:s] + ph + text[e:]`). -/
def protStep (txt : List Char) (s e : Nat) (ph : List Char) : List Char :=
  txt.take s ++ ph ++ txt.drop e

/-- One iteration of the webapp replacement loop: replace the span in the
working text by the placeholder built from the current counter and the
slice of the original text `t`, record the map entry, bump the counter. -/
def protStepW (t : List Char) (st : List Char × List (List Char × List Char) × Nat)
    (m : Nat × Nat) : List Char × List (List Char × List Char) × Nat :=
  (protStep st.1 m.1 m.2 (phW st.2.2 (sliceTE t m.1 m.2)),
   st.2.1 ++ [(phW st.2.2 (sliceTE t m.1 m.2), sliceTE t m.1 m.2)],
   st.2.2 + 1)

/-- `preserve_proper_nouns` of the webapp module: collect matches with
overlap discarding, sort by start descending, then replace each span (in
that order) by its placeholder, recording `placeholder -> original` in
insertion order. -/
def preserve_proper_nouns (t : List Char) : List Char × List (List Char × List Char) :=
  let r := (sortDesc (collectW t)).foldl (protStepW t) (t, ([], 0))
  (r.1, r.2.1)

/-- `preserve_names_and_entities` of the root module: all matches of all
patterns (without overlap discarding), sorted by start descending, each
replaced by `__NAME_{i}__`. -/
def preserve_names_and_entities (t : List Char) : List Char × List (List Char × List Char) :=
  let r := (sortDesc (rootAllMatches t)).foldl
    (fun (st : List Char × List (List Char × List Char) × Nat) m =>
      (protStep st.1 m.1 m.2 (phRoot st.2.2),
       st.2.1 ++ [(phRoot st.2.2, sliceTE t m.1 m.2)],
       st.2.2 + 1))
    (t, ([], 0))
  (r.1, r.2.1)

/-- `restore_names_and_entities` of the root module: unconditionally
`str.replace` each placeholder by its original, in map order. -/
def restore_names_and_entities (translated : List Char) (entities : List (List Char × List Char)) :
    List Char :=
  entities.foldl (fun acc pr => pyReplace acc pr.1 pr.2) translated

/-- Fuelled worker of `lazyGo` (advances one position per step). -/
def lazyGoF : Nat → List Char → Nat → Option Nat
  | 0, _, _ => none
  | fuel + 1, t, j =>
    if isCharAt t j '\n' then none
    else if j < t.length then
      (if isCharAt t (j+1) zwd then some (j+1) else lazyGoF fuel t (j+1))
    else none

/-- Worker of the lazy `(.+?)‍` tail of the placeholder regex: scan
group characters from position `j`; fail on a newline (`.` does not match
it), succeed at the first later `‍`. -/
def lazyGo (t : List Char) (j : Nat) : Option Nat := lazyGoF (t.length + 1 - j) t j

/-- Match of `​(\d+)‌(.+?)‍` anchored at `p`, returning the
two capture groups. -/
def phMatchAt (t : List Char) (p : Nat) : Option (List Char × List Char) :=
  if isCharAt t p zwb then
    let d := runLen Char.isDigit t (p+1)
    if 1 ≤ d && isCharAt t (p+1+d) zwc then
      match lazyGo t (p+2+d) with
      | some m => some (sliceTE t (p+1) (p+1+d), sliceTE t (p+2+d) m)
      | none => none
    else none
  else none

/-- Scan worker of `searchPh` (leftmost match; fuelled, one position per
step). -/
def searchGo (t : List Char) : Nat → Nat → Option (List Char × List Char)
  | 0, _ => none
  | fuel + 1, p =>
    if p ≤ t.length then
      match phMatchAt t p with
      | some r => some r
      | none => searchGo t fuel (p+1)
    else none

/-- `re.search(r'​(\d+)‌(.+?)‍', s)`, giving the counter
digits and the embedded original text. -/
def searchPh (t : List Char) : Option (List Char × List Char) := searchGo t (t.length + 1) 0

/-- The exact-match pass of `restore_proper_nouns`: for each map entry in
order, if the placeholder still occurs, replace it by the original. -/
def pass1 (t : List Char) (m : List (List Char × List Char)) : List Char :=
  m.foldl (fun acc pr => if containsSub acc pr.1 then pyReplace acc pr.1 pr.2 else acc) t

/-- The candidate loop of the degraded-recovery pass: try the candidates
in order and replace the first one that occurs and differs from the
original text. -/
def tryCands (acc orig : List Char) : List (List Char) → List Char
  | [] => acc
  | c :: rest =>
    if containsSub acc c && !(c == orig) then pyReplace acc c orig
    else tryCands acc orig rest

/-- One entry of the degraded-recovery pass: parse the placeholder and try
`counter+text`, `counter+" "+text`, then bare `text`. -/
def pass2step (acc p orig : List Char) : List Char :=
  match searchPh p with
  | none => acc
  | some (ns, ex) => tryCands acc orig [ns ++ ex, ns ++ ' ' :: ex, ex]

/-- The degraded-recovery pass of `restore_proper_nouns` (run for every
map entry, in map order). -/
def pass2 (t : List Char) (m : List (List Char × List Char)) : List Char :=
  m.foldl (fun acc pr => pass2step acc pr.1 pr.2) t

/-- `restore_proper_nouns` of the webapp module: the exact-match pass
followed by the degraded-recovery pass. -/
def restore_proper_nouns (translated : List Char) (preservation_map : List (List Char × List Char)) :
    List Char :=
  pass2 (pass1 translated preservation_map) preservation_map

/-! ### Chunking -/

/-- Worker of `splitSentences`: scan with the previous character at hand;
at a match of `(?<=[.!?])\s+` (previous character is sentence punctuation
and the current one is whitespace) close the sentence and skip the whole
whitespace run. -/
def splitSentAux : Nat → List Char → Char → List Char → List (List Char)
  | 0, _, _, acc => [acc.reverse]
  | _ + 1, [], _, acc => [acc.reverse]
  | fuel + 1, c :: t2, prev, acc =>
    if punctC prev && wsC c then acc.reverse :: splitSentAux fuel (t2.dropWhile wsC) ' ' []
    else splitSentAux fuel t2 c (c :: acc)

/-- `re.split(r'(?<=[.!?])\s+', text)`: the sentence units of the root
module's chunker (each step of the fuelled worker consumes at least one
character, so fuel `t.length` suffices). -/
def splitSentences (t : List Char) : List (List Char) := splitSentAux t.length t ' ' []

/-- The sentence-accumulation loop of the root `translate_text_chunks`:
close the buffer when appending the next sentence would make
`len(buffer + sentence)` exceed the chunk size (note: the test does not
count the joining space), and strip each emitted chunk. -/
def chunkGo (N : Nat) : List (List Char) → List Char → List (List Char)
  | [], cc => if cc = [] then [] else [stripWs cc]
  | s :: rest, cc =>
    if N < (cc ++ s).length then
      (if cc = [] then chunkGo N rest s else stripWs cc :: chunkGo N rest s)
    else chunkGo N rest (if cc = [] then s else cc ++ ' ' :: s)

/-- The sentence-based chunking step of the root `translate_text_chunks`
(source lines 213 to 227). -/
def chunkProtectedText (t : List Char) (N : Nat) : List (List Char) :=
  chunkGo N (splitSentences t) []

/-- The fixed-size slicing of the webapp `translate_text_chunks`
(`[text[i:i+N] for i in range(0, len(text), N)]`; the source always uses
`N = 3000`, and Python would reject a zero step, so the `N = 0` case is
unreachable and modelled as the empty list). -/
def sliceChunksF : Nat → List Char → Nat → List (List Char)
  | 0, _, _ => []
  | fuel + 1, t, N =>
    if t = [] then [] else if 0 < N then t.take N :: sliceChunksF fuel (t.drop N) N else []

/-- Wrapper of the fuelled slicer (each step consumes at least one
character, so fuel `t.length` suffices). -/
def sliceChunks (t : List Char) (N : Nat) : List (List Char) := sliceChunksF t.length t N

/-! ### Translation orchestration -/

/-- Outcome of one backend attempt: the attempt succeeds only when the
backend does not raise and returns a non-empty text payload. -/
def attemptOk : Except Unit (List Char) → Option (List Char)
  | Except.ok t => if t = [] then none else some t
  | Except.error _ => none

/-- The two-attempt retry loop of the root `translate_text_chunks`
(`for attempt in range(2)` with a break on the first success). -/
def attemptLoop (oracle : Nat → Except Unit (List Char)) : Option (List Char) :=
  match attemptOk (oracle 0) with
  | some t => some t
  | none => attemptOk (oracle 1)

/-- Per-chunk result of the root module: the best translation, or the
original (protected) chunk text when both attempts fail. -/
def translateChunkRoot (oracle : Nat → Except Unit (List Char)) (chunk : List Char) : List Char :=
  (attemptLoop oracle).getD chunk

/-- The per-chunk loop of the root `translate_text_chunks`, with the
backend modelled by an oracle indexed by chunk number and attempt
number. -/
def translateAllRoot (oracle : Nat → Nat → Except Unit (List Char))
    (chunks : List (List Char)) : List (List Char) :=
  chunks.enum.map (fun ic => translateChunkRoot (oracle ic.1) ic.2)

/-- `translate_text_chunks` of the root module: blank-input early return,
protect, sentence chunking, per-chunk translation with retry and
fallback, single-space reassembly, restore. -/
def translate_text_chunks_root (oracle : Nat → Nat → Except Unit (List Char))
    (chunk_size : Nat) (text : List Char) : List Char :=
  if stripWs text = [] then text
  else
    let pm := preserve_names_and_entities text
    restore_names_and_entities
      (joinSpace (translateAllRoot oracle (chunkProtectedText pm.1 chunk_size))) pm.2

/-- Per-chunk result of the webapp module (a single attempt; the chunk
text is kept on failure, and the returned payload is used as-is). -/
def translateChunkWeb (r : Except Unit (List Char)) (chunk : List Char) : List Char :=
  match r with
  | Except.ok t => t
  | Except.error _ => chunk

/-- `translate_text_chunks` of the webapp module: blank-input early
return, fixed-size slicing, one attempt per chunk with fallback,
single-space reassembly (no protection or restoration). -/
def translate_text_chunks_webapp (oracle : Nat → Except Unit (List Char))
    (chunk_size : Nat) (text : List Char) : List Char :=
  if stripWs text = [] then text
  else joinSpace ((sliceChunks text chunk_size).enum.map
    (fun ic => translateChunkWeb (oracle ic.1) ic.2))

/-! ### Pipeline coordinator -/

/-- Fatal per-document outcomes of the single-document pipeline. -/
inductive PipeErr where
  | notFound : PipeErr
  | extractFailed : PipeErr
  | noText : PipeErr
  | renderFailed : PipeErr
deriving DecidableEq

/-- `translate_single_pdf` of the root module, with the external
collaborators as parameters: existence check, extraction, the
empty-content check (`if not text.strip(): raise ValueError`), language
detection only when no source language was supplied, chunked translation,
rendering.  The returned payload stands for the rendered document's
text. -/
def translate_single_pdf (inputExists : Bool) (extractR : Except Unit (List Char))
    (sourceLang : Option (List Char)) (detectO : List Char → List Char)
    (translateO : List Char → Nat → Nat → Except Unit (List Char))
    (renderOk : Bool) (chunk_size : Nat) : Except PipeErr (List Char) :=
  if !inputExists then Except.error PipeErr.notFound
  else
    match extractR with
    | Except.error _ => Except.error PipeErr.extractFailed
    | Except.ok text =>
      if stripWs text = [] then Except.error PipeErr.noText
      else
        let lang := sourceLang.getD (detectO text)
        let translated := translate_text_chunks_root (translateO lang) chunk_size text
        if renderOk then Except.ok translated else Except.error PipeErr.renderFailed

/-- `batch_translate_pdfs`: after the directory check, run the
single-document pipeline per file in order, catching any per-file failure;
successes accumulate in the first component (the list the Python function
returns) and failed files in the second (the internal `failed_files`
record, which the source only logs). -/
def batch_translate_pdfs {α β : Type} (dirExists : Bool) (files : List α)
    (runSingle : α → Except Unit β) : Except Unit (List β × List α) :=
  if !dirExists then Except.error ()
  else Except.ok (files.foldl
    (fun st f =>
      match runSingle f with
      | Except.ok o => (st.1 ++ [o], st.2)
      | Except.error _ => (st.1, st.2 ++ [f])) ([], []))

/-! ### The supported-language table -/

/-- The static `SUPPORTED_LANGUAGES` table (identical in both modules). -/
def SUPPORTED_LANGUAGES : List (String × String) :=
  [("finnish", "fi"), ("french", "fr"), ("spanish", "es"), ("german", "de"),
   ("italian", "it"), ("portuguese", "pt"), ("russian", "ru"), ("chinese", "zh"),
   ("japanese", "ja"), ("korean", "ko"), ("dutch", "nl"), ("swedish", "sv"),
   ("norwegian", "no"), ("danish", "da"), ("polish", "pl")]

/-- A tiny object store for dictionaries: index 0 is the class attribute
holding the table; fresh copies are appended. -/
abbrev LangStore := List (List (String × String))

/-- The store at program start: only the class attribute object. -/
def storeInit : LangStore := [SUPPORTED_LANGUAGES]

/-- `get_supported_languages`: returns `SUPPORTED_LANGUAGES.copy()`, i.e.
allocates a fresh dictionary object with the same entries and hands back
a reference to it. -/
def get_supported_languages (s : LangStore) : LangStore × Nat :=
  (s ++ [s.getD 0 []], s.length)

/-- Python `dict` item assignment: replace the value of an existing key in
place, else append the new pair. -/
def updateAssoc (d : List (String × String)) (k v : String) : List (String × String) :=
  if d.any (fun pr => pr.1 == k) then d.map (fun pr => if pr.1 == k then (k, v) else pr)
  else d ++ [(k, v)]

/-- `d[k] = v` on the store object `r`. -/
def dictSetItem (s : LangStore) (r : Nat) (k v : String) : LangStore :=
  s.set r (updateAssoc (s.getD r []) k v)

/-- Caller operations on the language table: call the accessor, or mutate
a dictionary reference previously handed out. -/
inductive LangOp where
  | get : LangOp
  | set : Nat → String → String → LangOp

/-- Run a sequence of caller operations against the store. -/
def runLangOps (s : LangStore) : List LangOp → LangStore
  | [] => s
  | LangOp.get :: rest => runLangOps (get_supported_languages s).1 rest
  | LangOp.set r k v :: rest => runLangOps (dictSetItem s r k v) rest

/-! ### Proof-side descriptions of the protected text's shape -/

/-- Well-formedness of a start-descending replacement list over a working
text of length `n`: each span is nonempty and in range, and every later
(smaller-start) span ends at or before the current start. -/
def DescOk : List (Nat × Nat) → Nat → Prop
  | [], _ => True
  | (s, e) :: rest, n => s < e ∧ e ≤ n ∧ (∀ x ∈ rest, x.2 ≤ s) ∧ DescOk rest s

/-- Interleaving of gap segments and placeholders: `u0` is the leading
gap and each piece `(c, T, u)` contributes its placeholder followed by the
gap after it. -/
def mkProt (u0 : List Char) (ps : List (Nat × List Char × List Char)) : List Char :=
  u0 ++ (ps.map (fun x => phW x.1 x.2.1 ++ x.2.2)).flatten

/-- The same interleaving with each placeholder replaced by the original
span text: the original document. -/
def mkOrig (u0 : List Char) (ps : List (Nat × List Char × List Char)) : List Char :=
  u0 ++ (ps.map (fun x => x.2.1 ++ x.2.2)).flatten

/-- The preservation-map entry of a piece. -/
def entryOfW (x : Nat × List Char × List Char) : List Char × List Char :=
  (phW x.1 x.2.1, x.2.1)

/-- Decidable condition on a placeholder and a text: either the
placeholder does not parse, or neither degraded candidate
(`counter+text`, `counter+" "+text`) occurs in the text. -/
def candsFree (t ph : List Char) : Bool :=
  match searchPh ph with
  | none => true
  | some r => !(containsSub t (r.1 ++ r.2)) && !(containsSub t (r.1 ++ ' ' :: r.2))

/-! ### Helper lemmas: whitespace and stripping -/

theorem dropWhile_nil_of_all {p : Char → Bool} {l : List Char}
    (h : ∀ c ∈ l, p c = true) : l.dropWhile p = [] := by
  induction l with
  | nil => rfl
  | cons c r ih =>
    rw [List.dropWhile_cons, h c (List.mem_cons_self _ _)]
    exact ih (fun x hx => h x (List.mem_cons_of_mem _ hx))

theorem stripWs_nil_of_all {t : List Char} (h : ∀ c ∈ t, wsC c = true) :
    stripWs t = [] := by
  unfold stripWs trimL
  rw [dropWhile_nil_of_all h]
  rfl

theorem dropWhile_length_le (p : Char → Bool) (l : List Char) :
    (l.dropWhile p).length ≤ l.length := by
  induction l with
  | nil => simp [List.dropWhile]
  | cons c r ih => by_cases hc : p c <;> simp [List.dropWhile_cons, hc] <;> omega

theorem stripWs_length_le (t : List Char) : (stripWs t).length ≤ t.length := by
  unfold stripWs trimL
  calc ((t.dropWhile wsC).reverse.dropWhile wsC).reverse.length
      = ((t.dropWhile wsC).reverse.dropWhile wsC).length := List.length_reverse _
    _ ≤ (t.dropWhile wsC).reverse.length := dropWhile_length_le _ _
    _ = (t.dropWhile wsC).length := List.length_reverse _
    _ ≤ t.length := dropWhile_length_le _ _

/-! ### C10: blank-input identity -/

/-- C10: for every input text whose characters are all whitespace
(including the empty text), both modules' chunked-translation operations
return the input unchanged, for every chunk size and every translation
backend (so no protection, chunking or backend call can influence the
result). -/
theorem blank_input_identity (text : List Char) (h : ∀ c ∈ text, wsC c = true) :
    (∀ (oracle : Nat → Nat → Except Unit (List Char)) (N : Nat),
        translate_text_chunks_root oracle N text = text)
    ∧ (∀ (oracle : Nat → Except Unit (List Char)) (N : Nat),
        translate_text_chunks_webapp oracle N text = text) := by
  have hs : stripWs text = [] := stripWs_nil_of_all h
  constructor
  · intro oracle N
    simp [translate_text_chunks_root, hs]
  · intro oracle N
    simp [translate_text_chunks_webapp, hs]

/-- Witness for C10 at the concrete blank input of a space and a newline,
with an always-failing backend. -/
theorem blank_input_identity_witness :
    translate_text_chunks_root (fun _ _ => Except.error ()) 3000 [' ', '\n'] = [' ', '\n'] :=
  (blank_input_identity [' ', '\n'] (by decide)).1 (fun _ _ => Except.error ()) 3000

/-! ### C7: empty document rejection -/

/-- C7: when extraction succeeds but yields empty or whitespace-only
text, the single-document pipeline fails with the empty-content error,
for every detection oracle, translation backend and renderer outcome (so
the failure happens before any translation call and no output document is
produced). -/
theorem empty_document_rejection (text : List Char) (h : ∀ c ∈ text, wsC c = true) :
    ∀ (sourceLang : Option (List Char)) (detectO : List Char → List Char)
      (translateO : List Char → Nat → Nat → Except Unit (List Char))
      (renderOk : Bool) (N : Nat),
      translate_single_pdf true (Except.ok text) sourceLang detectO translateO renderOk N
        = Except.error PipeErr.noText := by
  intro sourceLang detectO translateO renderOk N
  have hs : stripWs text = [] := stripWs_nil_of_all h
  simp [translate_single_pdf, hs]

/-- Witness for C7 at a concrete whitespace-only extracted text. -/
theorem empty_document_rejection_witness :
    translate_single_pdf true (Except.ok [' ', '\t', '\n']) none (fun _ => ['e', 'n'])
        (fun _ _ _ => Except.ok ['x']) true 3000
      = Except.error PipeErr.noText :=
  empty_document_rejection [' ', '\t', '\n'] (by decide) none (fun _ => ['e', 'n'])
    (fun _ _ _ => Except.ok ['x']) true 3000

/-! ### C8: batch partial failure -/

theorem batch_foldl_spec {α β : Type} (runSingle : α → Except Unit β) :
    ∀ (files : List α) (acc : List β × List α),
      files.foldl
        (fun st f =>
          match runSingle f with
          | Except.ok o => (st.1 ++ [o], st.2)
          | Except.error _ => (st.1, st.2 ++ [f])) acc
        = (acc.1 ++ files.filterMap (fun f => (runSingle f).toOption),
           acc.2 ++ files.filter (fun f => ((runSingle f).toOption).isNone)) := by
  intro files
  induction files with
  | nil => intro acc; simp
  | cons f rest ih =>
    intro acc
    rw [List.foldl_cons, ih]
    cases hr : runSingle f with
    | ok o => simp [List.filterMap_cons, List.filter_cons, hr, Except.toOption]
    | error e => simp [List.filterMap_cons, List.filter_cons, hr, Except.toOption]

/-- C8 counterexample: for three files of which exactly the second fails,
the pipeline produces the two successful outputs in order and records
exactly the one failing file, but the value the Python function returns
(the success list) has two entries, not one per-file result-or-error
entry for each of the three inputs — so the claimed return shape is
wrong. -/
theorem batch_partial_failure_counterexample :
    (batch_translate_pdfs true [0, 1, 2]
        (fun n => if n = 1 then Except.error () else Except.ok (n + 10))
      = Except.ok ([10, 12], [1]))
    ∧ ([10, 12].length ≠ [0, 1, 2].length) := by
  constructor
  · rfl
  · decide

/-- C8 amended: batch translation runs the single-document pipeline per
file in order, never aborting on a failure; the successes (in input
order) form the list the function returns and the failing files are
recorded in the internal failure list, which is only logged — the return
value is the success list alone, not a per-file result-or-error list. -/
theorem batch_partial_failure_amended {α β : Type} (files : List α)
    (runSingle : α → Except Unit β) :
    batch_translate_pdfs true files runSingle
      = Except.ok (files.filterMap (fun f => (runSingle f).toOption),
                   files.filter (fun f => ((runSingle f).toOption).isNone)) := by
  unfold batch_translate_pdfs
  rw [if_neg (by simp)]
  rw [batch_foldl_spec]
  simp

/-! ### C4: retry fallback -/

theorem translateAllRoot_getD (oracle : Nat → Nat → Except Unit (List Char))
    (chunks : List (List Char)) (i : Nat) (hi : i < chunks.length) :
    (translateAllRoot oracle chunks).getD i [] = translateChunkRoot (oracle i) (chunks.getD i []) := by
  unfold translateAllRoot
  rw [List.getD_eq_getElem _ _ (by simpa using hi), List.getElem_map, List.getElem_enum,
    List.getD_eq_getElem _ _ hi]

/-- C4: per chunk, the orchestrator consults only the first two backend
attempts; an attempt succeeds exactly when the backend does not raise and
returns a non-empty payload (`attemptOk`); if both attempts fail, the
chunk's original protected text appears verbatim at that chunk's position
of the result list, the result always has one entry per chunk (the loop
never raises), and the whole result is unchanged if the backend is
replaced by one that agrees on attempts 0 and 1. -/
theorem fallback_on_exhausted_retries (oracle : Nat → Nat → Except Unit (List Char))
    (chunks : List (List Char)) :
    ((translateAllRoot oracle chunks).length = chunks.length)
    ∧ (∀ i, i < chunks.length →
        attemptOk (oracle i 0) = none → attemptOk (oracle i 1) = none →
          (translateAllRoot oracle chunks).getD i [] = chunks.getD i [])
    ∧ (∀ i, i < chunks.length → ∀ tr, attemptOk (oracle i 0) = some tr →
          (translateAllRoot oracle chunks).getD i [] = tr)
    ∧ (∀ i, i < chunks.length → ∀ tr, attemptOk (oracle i 0) = none →
        attemptOk (oracle i 1) = some tr →
          (translateAllRoot oracle chunks).getD i [] = tr)
    ∧ (∀ oracle2 : Nat → Nat → Except Unit (List Char),
        (∀ i, oracle i 0 = oracle2 i 0 ∧ oracle i 1 = oracle2 i 1) →
          translateAllRoot oracle chunks = translateAllRoot oracle2 chunks) := by
  refine ⟨by simp [translateAllRoot], ?_, ?_, ?_, ?_⟩
  · intro i hi h0 h1
    rw [translateAllRoot_getD oracle chunks i hi]
    simp [translateChunkRoot, attemptLoop, h0, h1]
  · intro i hi tr h0
    rw [translateAllRoot_getD oracle chunks i hi]
    simp [translateChunkRoot, attemptLoop, h0]
  · intro i hi tr h0 h1
    rw [translateAllRoot_getD oracle chunks i hi]
    simp [translateChunkRoot, attemptLoop, h0, h1]
  · intro oracle2 hag
    unfold translateAllRoot
    refine List.map_congr_left ?_
    intro ic _
    unfold translateChunkRoot attemptLoop
    rw [(hag ic.1).1, (hag ic.1).2]

/-- Witness for C4: with a backend that always raises, the first chunk of
a concrete two-chunk list comes back verbatim. -/
theorem fallback_on_exhausted_retries_witness :
    (translateAllRoot (fun _ _ => Except.error ()) [['a'], ['b', 'c']]).getD 0 [] = ['a'] :=
  (fallback_on_exhausted_retries (fun _ _ => Except.error ()) [['a'], ['b', 'c']]).2.1
    0 (by decide) rfl rfl

/-! ### C9: read-only supported-language table -/

theorem runLangOps_head (ops : List LangOp) :
    ∀ s : LangStore, 0 < s.length → (∀ r k v, LangOp.set r k v ∈ ops → r ≠ 0) →
      (runLangOps s ops).getD 0 [] = s.getD 0 [] ∧ 0 < (runLangOps s ops).length := by
  induction ops with
  | nil =>
    intro s hs _
    exact ⟨rfl, hs⟩
  | cons op rest ih =>
    intro s hs hv
    cases op with
    | get =>
      have step := ih (s ++ [s.getD 0 []]) (by simp)
        (fun r k v h => hv r k v (List.mem_cons_of_mem _ h))
      refine ⟨?_, step.2⟩
      rw [show runLangOps s (LangOp.get :: rest)
            = runLangOps (s ++ [s.getD 0 []]) rest from rfl, step.1]
      rw [List.getD_append _ _ _ _ hs]
    | set r k v =>
      have hr : r ≠ 0 := hv r k v (List.mem_cons_self _ _)
      have step := ih (dictSetItem s r k v) (by simpa [dictSetItem] using hs)
        (fun r2 k2 v2 h => hv r2 k2 v2 (List.mem_cons_of_mem _ h))
      refine ⟨?_, step.2⟩
      rw [show runLangOps s (LangOp.set r k v :: rest)
            = runLangOps (dictSetItem s r k v) rest from rfl, step.1]
      unfold dictSetItem
      rw [List.getD_eq_getElem?_getD, List.getElem?_set_ne hr, ← List.getD_eq_getElem?_getD]

/-- C9: after any sequence of accessor calls and mutations of the
returned dictionaries (never of the class attribute itself, which is
justified because the accessor always hands out a fresh reference,
distinct from the table's), the accessor still returns a dictionary equal
to the static table, and the table object itself is unchanged. -/
theorem supported_languages_read_only (ops : List LangOp)
    (hv : ∀ r k v, LangOp.set r k v ∈ ops → r ≠ 0) :
    ((get_supported_languages (runLangOps storeInit ops)).1.getD
        (get_supported_languages (runLangOps storeInit ops)).2 []
      = SUPPORTED_LANGUAGES)
    ∧ ((runLangOps storeInit ops).getD 0 [] = SUPPORTED_LANGUAGES)
    ∧ ((get_supported_languages (runLangOps storeInit ops)).2 ≠ 0) := by
  have h := runLangOps_head ops storeInit (by decide) hv
  have htab : (runLangOps storeInit ops).getD 0 [] = SUPPORTED_LANGUAGES := h.1
  refine ⟨?_, htab, ?_⟩
  · unfold get_supported_languages
    rw [List.getD_eq_getElem?_getD, List.getElem?_concat_length]
    exact htab
  · unfold get_supported_languages
    omega

/-- Witness for C9: call the accessor, mutate the returned copy
(reference 1), call the accessor again: the result still equals the
table. -/
theorem supported_languages_read_only_witness :
    (get_supported_languages
        (runLangOps storeInit [LangOp.get, LangOp.set 1 "finnish" "XX", LangOp.get])).1.getD
      (get_supported_languages
        (runLangOps storeInit [LangOp.get, LangOp.set 1 "finnish" "XX", LangOp.get])).2 []
      = SUPPORTED_LANGUAGES :=
  (supported_languages_read_only [LangOp.get, LangOp.set 1 "finnish" "XX", LangOp.get]
    (by
      intro r k v h
      simp only [List.mem_cons, List.not_mem_nil, or_false] at h
      rcases h with h | h | h
      · exact absurd h (by simp)
      · injection h with h1 h2 h3
        omega
      · exact absurd h (by simp))).1

/-! ### C3: chunk size bound -/

theorem chunkGo_bound (N : Nat) (ssAll : List (List Char)) :
    ∀ (ss : List (List Char)) (cc : List Char),
      (∀ s ∈ ss, s ∈ ssAll) → (cc.length ≤ N + 1 ∨ ∃ s ∈ ssAll, cc = s) →
      ∀ c ∈ chunkGo N ss cc, c.length ≤ N + 1 ∨ ∃ s ∈ ssAll, c = stripWs s := by
  intro ss
  induction ss with
  | nil =>
    intro cc _ hcc c hc
    unfold chunkGo at hc
    by_cases h0 : cc = []
    · simp [h0] at hc
    · simp only [h0, if_false] at hc
      rw [List.mem_singleton] at hc
      subst hc
      rcases hcc with h | ⟨s, hs, heq⟩
      · exact Or.inl (le_trans (stripWs_length_le cc) h)
      · exact Or.inr ⟨s, hs, by rw [heq]⟩
  | cons s rest ih =>
    intro cc hss hcc c hc
    have hsAll : s ∈ ssAll := hss s (List.mem_cons_self _ _)
    have hrest : ∀ x ∈ rest, x ∈ ssAll := fun x hx => hss x (List.mem_cons_of_mem _ hx)
    unfold chunkGo at hc
    by_cases hover : N < (cc ++ s).length
    · simp only [hover, if_true] at hc
      by_cases h0 : cc = []
      · simp only [h0, if_true] at hc
        exact ih s hrest (Or.inr ⟨s, hsAll, rfl⟩) c hc
      · simp only [h0, if_false] at hc
        rcases List.mem_cons.mp hc with hcq | hc2
        · subst hcq
          rcases hcc with h | ⟨s2, hs2, heq⟩
          · exact Or.inl (le_trans (stripWs_length_le cc) h)
          · exact Or.inr ⟨s2, hs2, by rw [heq]⟩
        · exact ih s hrest (Or.inr ⟨s, hsAll, rfl⟩) c hc2
    · simp only [hover, if_false] at hc
      have hlen : (cc ++ s).length ≤ N := Nat.le_of_not_lt hover
      by_cases h0 : cc = []
      · simp only [h0, if_true] at hc
        exact ih s hrest (Or.inr ⟨s, hsAll, rfl⟩) c hc
      · simp only [h0, if_false] at hc
        refine ih (cc ++ ' ' :: s) hrest (Or.inl ?_) c hc
        simp only [List.length_append, List.length_cons]
        simp only [List.length_append] at hlen
        omega

/-- C3 counterexample: with chunk size 4 and the text `"a. b."`, the two
sentences `"a."` and `"b."` (each of length 2) are merged into the single
chunk `"a. b."` of length 5: a chunk that exceeds the maximum but is not
a single oversized sentence, because the size test does not count the
joining space. -/
theorem chunk_size_bound_counterexample :
    ¬ (∀ c ∈ chunkProtectedText ("a. b.".toList) 4,
        c.length ≤ 4
          ∨ ∃ s ∈ splitSentences ("a. b.".toList), c = stripWs s ∧ 4 < (stripWs s).length) := by
  decide

/-- C3 amended: every chunk produced by the sentence chunker is either a
single (stripped) sentence of the input — in particular an oversized
sentence is accepted whole, never subdivided or truncated — or has length
at most the maximum size plus one: the joining space is not counted by
the size test, so a merged chunk may exceed the maximum by exactly one. -/
theorem chunk_size_bound_amended (t : List Char) (N : Nat) :
    ∀ c ∈ chunkProtectedText t N, c.length ≤ N + 1 ∨ ∃ s ∈ splitSentences t, c = stripWs s := by
  intro c hc
  exact chunkGo_bound N (splitSentences t) (splitSentences t) []
    (fun s hs => hs) (Or.inl (by simp)) c hc

/-- Witness for C3 amended at the concrete counterexample input: the
merged chunk has length 5 = 4 + 1. -/
theorem chunk_size_bound_amended_witness :
    ("a. b.".toList).length ≤ 4 + 1
      ∨ ∃ s ∈ splitSentences ("a. b.".toList), "a. b.".toList = stripWs s :=
  chunk_size_bound_amended ("a. b.".toList) 4 ("a. b.".toList) (by decide)

/-! ### C2: chunk reconstruction -/

theorem tokensAux_all_ws {w : List Char} (hw : ∀ c ∈ w, wsC c = true) (acc : List Char) :
    tokensAux w acc = if acc = [] then [] else [acc.reverse] := by
  induction w generalizing acc with
  | nil => rfl
  | cons c w2 ih =>
    have hc : wsC c = true := hw c (List.mem_cons_self _ _)
    have hw2 : ∀ x ∈ w2, wsC x = true := fun x hx => hw x (List.mem_cons_of_mem _ hx)
    by_cases h0 : acc = []
    · simp only [tokensAux, hc, if_true, h0]
      exact ih hw2 []
    · simp only [tokensAux, hc, if_true, h0, if_false]
      rw [ih hw2 []]
      rfl

theorem tokensAux_ws_append {c : Char} (hc : wsC c = true) :
    ∀ (a acc b : List Char),
      tokensAux (a ++ c :: b) acc = tokensAux a acc ++ tokensAux b [] := by
  intro a
  induction a with
  | nil =>
    intro acc b
    by_cases h0 : acc = [] <;> simp [tokensAux, hc, h0]
  | cons x a2 ih =>
    intro acc b
    by_cases hx : wsC x
    · by_cases h0 : acc = [] <;> simp [tokensAux, hx, h0, ih]
    · simp [tokensAux, hx, ih]

theorem tokens_ws_append {c : Char} (hc : wsC c = true) (a b : List Char) :
    tokens (a ++ c :: b) = tokens a ++ tokens b :=
  tokensAux_ws_append hc a [] b

theorem tokensAux_append_all_ws {w : List Char} (hw : ∀ c ∈ w, wsC c = true) :
    ∀ (a acc : List Char), tokensAux (a ++ w) acc = tokensAux a acc := by
  intro a
  induction a with
  | nil =>
    intro acc
    rw [List.nil_append, tokensAux_all_ws hw]
    rfl
  | cons x a2 ih =>
    intro acc
    by_cases hx : wsC x
    · by_cases h0 : acc = [] <;> simp [tokensAux, hx, h0, ih]
    · simp [tokensAux, hx, ih]

theorem tokens_dropWhile_ws (t : List Char) : tokens (t.dropWhile wsC) = tokens t := by
  induction t with
  | nil => rfl
  | cons c t2 ih =>
    by_cases hc : wsC c
    · rw [List.dropWhile_cons, if_pos hc, ih]
      simp [tokens, tokensAux, hc]
    · rw [List.dropWhile_cons, if_neg hc]

theorem tokens_stripWs (t : List Char) : tokens (stripWs t) = tokens t := by
  have hdecomp : trimL t = stripWs t ++ ((trimL t).reverse.takeWhile wsC).reverse := by
    unfold stripWs
    rw [← List.reverse_append, List.takeWhile_append_dropWhile, List.reverse_reverse]
  have hws : ∀ c ∈ ((trimL t).reverse.takeWhile wsC).reverse, wsC c = true := by
    intro c hcm
    rw [List.mem_reverse] at hcm
    exact List.mem_takeWhile_imp hcm
  have h1 : tokens (trimL t) = tokens t := tokens_dropWhile_ws t
  rw [← h1, hdecomp]
  exact (tokensAux_append_all_ws hws (stripWs t) []).symm

theorem tokens_joinSpace (l : List (List Char)) :
    tokens (joinSpace l) = (l.map tokens).flatten := by
  induction l with
  | nil => rfl
  | cons c rest ih =>
    cases rest with
    | nil => simp [joinSpace, tokens]
    | cons d rest2 =>
      rw [show joinSpace (c :: d :: rest2) = c ++ ' ' :: joinSpace (d :: rest2) from rfl]
      rw [tokens_ws_append (by decide) c (joinSpace (d :: rest2)), ih]
      simp

theorem splitSentAux_tokens :
    ∀ (fuel : Nat) (t : List Char) (prev : Char) (acc : List Char), t.length ≤ fuel →
      ((splitSentAux fuel t prev acc).map tokens).flatten = tokens (acc.reverse ++ t) := by
  intro fuel
  induction fuel with
  | zero =>
    intro t prev acc ht
    have : t = [] := List.eq_nil_of_length_eq_zero (Nat.le_zero.mp ht)
    subst this
    simp [splitSentAux]
  | succ f ih =>
    intro t prev acc ht
    cases t with
    | nil => simp [splitSentAux]
    | cons c t2 =>
      by_cases hb : (punctC prev && wsC c) = true
      · rw [show splitSentAux (f+1) (c :: t2) prev acc
              = acc.reverse :: splitSentAux f (t2.dropWhile wsC) ' ' [] by
            simp [splitSentAux, hb]]
        have hlen : (t2.dropWhile wsC).length ≤ f :=
          le_trans (dropWhile_length_le wsC t2) (by simpa using ht)
        rw [List.map_cons, List.flatten_cons, ih (t2.dropWhile wsC) ' ' [] hlen]
        have hwsc : wsC c = true := by
          have hb2 := hb
          rw [Bool.and_eq_true] at hb2
          exact hb2.2
        simp only [List.reverse_nil, List.nil_append]
        rw [tokens_dropWhile_ws t2, tokens_ws_append hwsc acc.reverse t2]
      · rw [show splitSentAux (f+1) (c :: t2) prev acc
              = splitSentAux f t2 c (c :: acc) by simp [splitSentAux, hb]]
        rw [ih t2 c (c :: acc) (by simpa using ht)]
        simp

theorem chunkGo_tokens (N : Nat) :
    ∀ (ss : List (List Char)) (cc : List Char),
      ((chunkGo N ss cc).map tokens).flatten = tokens cc ++ (ss.map tokens).flatten := by
  intro ss
  induction ss with
  | nil =>
    intro cc
    by_cases h0 : cc = []
    · simp [chunkGo, h0, tokens, tokensAux]
    · simp [chunkGo, h0, tokens_stripWs]
  | cons s rest ih =>
    intro cc
    unfold chunkGo
    by_cases hover : N < (cc ++ s).length
    · simp only [hover, if_true]
      by_cases h0 : cc = []
      · simp [h0, ih, tokens, tokensAux]
      · simp only [h0, if_false, List.map_cons, List.flatten_cons, ih]
        rw [tokens_stripWs]
    · simp only [hover, if_false]
      by_cases h0 : cc = []
      · simp [h0, ih, tokens, tokensAux]
      · simp only [h0, if_false, ih]
        rw [tokens_ws_append (by decide) cc s]
        simp

/-- C2 counterexample: the reconstruction is not exact.  For the root
module's sentence chunker, the text `"a.  b"` (two spaces) comes back as
`"a. b"` after joining and normalizing, not as the original; for the
webapp module's fixed-size slicer, slicing `"aaa"` with chunk size 2 and
joining with a space yields `"aa a"`, which no whitespace normalization
maps back to `"aaa"`. -/
theorem chunk_reconstruction_counterexample :
    (normalizeWs (joinSpace (chunkProtectedText ("a.  b".toList) 3000)) ≠ "a.  b".toList)
    ∧ (normalizeWs (joinSpace (sliceChunks ("aaa".toList) 2)) ≠ "aaa".toList) := by
  decide

/-- C2 amended: for the root module's sentence chunker, joining the
chunks with single spaces reproduces the protected text up to whitespace
normalization of both sides: the chunks' words, in order, are exactly the
protected text's words. -/
theorem chunk_reconstruction_amended (t : List Char) (N : Nat) :
    normalizeWs (joinSpace (chunkProtectedText t N)) = normalizeWs t := by
  unfold normalizeWs
  rw [tokens_joinSpace]
  unfold chunkProtectedText
  rw [chunkGo_tokens]
  rw [show tokens [] = [] from rfl, List.nil_append]
  unfold splitSentences
  rw [splitSentAux_tokens t.length t ' ' [] (le_refl _)]
  rfl

/-! ### C6: overlap discarding during detection -/

theorem overlapB_symm (a b : Nat × Nat) : overlapB a b = overlapB b a := by
  unfold overlapB
  simp only [gt_iff_lt]
  exact Bool.and_comm _ _

theorem addIfNoOverlap_pairwise (acc : List (Nat × Nat)) (m : Nat × Nat)
    (h : acc.Pairwise (fun a b => overlapB a b = false)) :
    (addIfNoOverlap acc m).Pairwise (fun a b => overlapB a b = false) := by
  unfold addIfNoOverlap
  by_cases hany : acc.any (fun x => overlapB m x) = true
  · simpa [hany] using h
  · simp only [hany, if_false, Bool.false_eq_true]
    rw [List.pairwise_append]
    refine ⟨h, List.pairwise_singleton _ _, ?_⟩
    intro a ha b hb
    rw [List.mem_singleton] at hb
    subst hb
    rw [overlapB_symm]
    exact Bool.eq_false_iff.mpr
      ((List.any_eq_false.mp (Bool.eq_false_iff.mpr hany)) a ha)

theorem collect_fold_pairwise (stream : List (Nat × Nat)) :
    ∀ acc, acc.Pairwise (fun a b => overlapB a b = false) →
      (stream.foldl addIfNoOverlap acc).Pairwise (fun a b => overlapB a b = false) := by
  induction stream with
  | nil => intro acc h; exact h
  | cons m rest ih =>
    intro acc h
    exact ih (addIfNoOverlap acc m) (addIfNoOverlap_pairwise acc m h)

theorem addIfNoOverlap_subset (acc : List (Nat × Nat)) (m x : Nat × Nat)
    (h : x ∈ addIfNoOverlap acc m) : x ∈ acc ∨ x = m := by
  unfold addIfNoOverlap at h
  by_cases hany : acc.any (fun y => overlapB m y) = true
  · rw [if_pos hany] at h
    exact Or.inl h
  · rw [if_neg hany] at h
    rcases List.mem_append.mp h with h2 | h2
    · exact Or.inl h2
    · exact Or.inr (List.mem_singleton.mp h2)

theorem collect_fold_subset (stream : List (Nat × Nat)) :
    ∀ acc x, x ∈ stream.foldl addIfNoOverlap acc → x ∈ acc ∨ x ∈ stream := by
  induction stream with
  | nil => intro acc x h; exact Or.inl h
  | cons m rest ih =>
    intro acc x h
    rcases ih (addIfNoOverlap acc m) x h with h2 | h2
    · rcases addIfNoOverlap_subset acc m x h2 with h3 | h3
      · exact Or.inl h3
      · exact Or.inr (h3 ▸ List.mem_cons_self _ _)
    · exact Or.inr (List.mem_cons_of_mem _ h2)

theorem collect_fold_mono (stream : List (Nat × Nat)) :
    ∀ acc x, x ∈ acc → x ∈ stream.foldl addIfNoOverlap acc := by
  induction stream with
  | nil => intro acc x h; exact h
  | cons m rest ih =>
    intro acc x h
    refine ih (addIfNoOverlap acc m) x ?_
    unfold addIfNoOverlap
    by_cases hany : acc.any (fun y => overlapB m y) = true
    · rwa [if_pos hany]
    · rw [if_neg hany]
      exact List.mem_append_left _ h

theorem collect_fold_coverage (stream : List (Nat × Nat)) :
    ∀ acc m, m ∈ stream →
      m ∈ stream.foldl addIfNoOverlap acc
        ∨ ∃ x ∈ stream.foldl addIfNoOverlap acc, overlapB m x = true := by
  induction stream with
  | nil => intro acc m h; cases h
  | cons m0 rest ih =>
    intro acc m h
    rcases List.mem_cons.mp h with rfl | h2
    · by_cases hany : acc.any (fun y => overlapB m y) = true
      · rcases List.any_eq_true.mp hany with ⟨x, hx, hov⟩
        refine Or.inr ⟨x, ?_, hov⟩
        refine collect_fold_mono rest (addIfNoOverlap acc m) x ?_
        unfold addIfNoOverlap
        rw [if_pos hany]
        exact hx
      · refine Or.inl ?_
        refine collect_fold_mono rest (addIfNoOverlap acc m) m ?_
        unfold addIfNoOverlap
        rw [if_neg hany]
        exact List.mem_append_right _ (List.mem_singleton_self _)
    · exact ih (addIfNoOverlap acc m0) m h2

theorem pairwise_countP_le_one (l : List (Nat × Nat)) (i : Nat)
    (h : l.Pairwise (fun a b => overlapB a b = false)) :
    l.countP (fun m => decide (m.1 ≤ i) && decide (i < m.2)) ≤ 1 := by
  induction l with
  | nil => simp
  | cons m rest ih =>
    rw [List.pairwise_cons] at h
    by_cases hm : (decide (m.1 ≤ i) && decide (i < m.2)) = true
    · rw [List.countP_cons, hm, if_pos rfl]
      have hforall : ∀ x ∈ rest, (decide (x.1 ≤ i) && decide (i < x.2)) = false := by
        intro x hx
        have hov := h.1 x hx
        simp only [Bool.and_eq_true, decide_eq_true_eq] at hm
        unfold overlapB at hov
        rw [Bool.and_eq_false_iff] at hov
        simp only [decide_eq_false_iff_not, Nat.not_lt, gt_iff_lt] at hov
        rw [Bool.and_eq_false_iff]
        simp only [decide_eq_false_iff_not, Nat.not_le, Nat.not_lt]
        rcases hov with hov | hov
        · right
          omega
        · left
          omega
      rw [List.countP_eq_zero.mpr (fun a ha => Bool.eq_false_iff.mp (hforall a ha))]
    · rw [List.countP_cons, Bool.eq_false_iff.mpr hm, if_neg (by simp)]
      simpa using ih h.2

/-- C6 counterexample: the root module's detector performs no overlap
discarding: on the input `"Dr. John Smith"` it keeps both the span of
`"John Smith"` (positions 4 to 14, from the First-Last pattern) and the
overlapping span of `"Dr. John Smith"` (positions 0 to 14, from the
title pattern), so positions 4 to 13 are covered by two preserved
spans. -/
theorem overlap_discarding_counterexample :
    ¬ ((rootAllMatches ("Dr. John Smith".toList)).Pairwise
        (fun a b => overlapB a b = false)) := by
  decide

/-- C6 amended: the webapp detector discards overlapping candidates in
scan order: its kept matches are pairwise non-overlapping (so no text
position is covered by more than one kept span), every kept match comes
from the raw pattern scan, and every raw match is either kept or overlaps
some kept (earlier-accepted) match.  The root module's detector keeps
every raw match and has no such guarantee. -/
theorem overlap_discarding_amended (t : List Char) :
    ((collectW t).Pairwise (fun a b => overlapB a b = false))
    ∧ (∀ i : Nat, (collectW t).countP (fun m => decide (m.1 ≤ i) && decide (i < m.2)) ≤ 1)
    ∧ (∀ m ∈ collectW t, m ∈ webRawMatches t)
    ∧ (∀ m ∈ webRawMatches t, m ∈ collectW t ∨ ∃ x ∈ collectW t, overlapB m x = true) := by
  have hpw := collect_fold_pairwise (webRawMatches t) [] (List.Pairwise.nil)
  refine ⟨hpw, fun i => pairwise_countP_le_one _ i hpw, ?_, ?_⟩
  · intro m hm
    rcases collect_fold_subset (webRawMatches t) [] m hm with h | h
    · cases h
    · exact h
  · intro m hm
    exact collect_fold_coverage (webRawMatches t) [] m hm

/-- Witness for C6 amended: on `"Acme Inc x"` the organization-pattern
match is discarded because it overlaps the already-kept name-pattern
match of the same span. -/
theorem overlap_discarding_amended_witness :
    (0, 8) ∈ collectW ("Acme Inc x".toList)
      ∨ ∃ x ∈ collectW ("Acme Inc x".toList), overlapB (0, 8) x = true :=
  (overlap_discarding_amended ("Acme Inc x".toList)).2.2.2 (0, 8) (by decide)

/-! ### Replacement machinery shared by the restoration proofs -/

theorem isPrefixOf_append_self (l r : List Char) : l.isPrefixOf (l ++ r) = true := by
  induction l with
  | nil => simp [List.isPrefixOf]
  | cons a as ih => simp [List.isPrefixOf, ih]

theorem replGo_nochange (p0 : Char) (ps rep : List Char) :
    ∀ (fuel : Nat) (B : List Char),
      (∀ i, (p0 :: ps).isPrefixOf (B.drop i) = false) → replGo p0 ps rep fuel B = B := by
  intro fuel
  induction fuel with
  | zero => intro B _; rfl
  | succ f ih =>
    intro B h
    cases B with
    | nil => rfl
    | cons c rest =>
      have h0 : (p0 :: ps).isPrefixOf (c :: rest) = false := by simpa using h 0
      rw [show replGo p0 ps rep (f+1) (c :: rest)
            = if (p0 :: ps).isPrefixOf (c :: rest) then
                rep ++ replGo p0 ps rep f (rest.drop ps.length)
              else c :: replGo p0 ps rep f rest from rfl]
      rw [h0]
      simp only [Bool.false_eq_true, if_false]
      rw [ih rest (fun i => by simpa using h (i+1))]

theorem replGo_single (p0 : Char) (ps rep : List Char) :
    ∀ (A : List Char) (fuel : Nat) (B : List Char),
      (A ++ (p0 :: ps) ++ B).length ≤ fuel →
      (∀ i, i < A.length → (p0 :: ps).isPrefixOf ((A ++ (p0 :: ps) ++ B).drop i) = false) →
      (∀ i, (p0 :: ps).isPrefixOf (B.drop i) = false) →
      replGo p0 ps rep fuel (A ++ (p0 :: ps) ++ B) = A ++ rep ++ B := by
  intro A
  induction A with
  | nil =>
    intro fuel B hfuel h1 h2
    cases fuel with
    | zero => simp at hfuel
    | succ f =>
      rw [List.nil_append, List.nil_append]
      rw [show (p0 :: ps) ++ B = p0 :: (ps ++ B) from rfl]
      rw [show replGo p0 ps rep (f+1) (p0 :: (ps ++ B))
            = if (p0 :: ps).isPrefixOf (p0 :: (ps ++ B)) then
                rep ++ replGo p0 ps rep f ((ps ++ B).drop ps.length)
              else p0 :: replGo p0 ps rep f (ps ++ B) from rfl]
      rw [show (p0 :: ps).isPrefixOf (p0 :: (ps ++ B)) = true from isPrefixOf_append_self _ _]
      rw [if_pos rfl, List.drop_left, replGo_nochange p0 ps rep f B h2]
  | cons a A2 ih =>
    intro fuel B hfuel h1 h2
    cases fuel with
    | zero => simp at hfuel
    | succ f =>
      rw [show (a :: A2) ++ (p0 :: ps) ++ B = a :: (A2 ++ (p0 :: ps) ++ B) by simp]
      have h0 : (p0 :: ps).isPrefixOf (a :: (A2 ++ (p0 :: ps) ++ B)) = false := by
        have := h1 0 (by simp)
        simpa using this
      rw [show replGo p0 ps rep (f+1) (a :: (A2 ++ (p0 :: ps) ++ B))
            = if (p0 :: ps).isPrefixOf (a :: (A2 ++ (p0 :: ps) ++ B)) then
                rep ++ replGo p0 ps rep f ((A2 ++ (p0 :: ps) ++ B).drop ps.length)
              else a :: replGo p0 ps rep f (A2 ++ (p0 :: ps) ++ B) from rfl]
      rw [h0]
      simp only [Bool.false_eq_true, if_false]
      rw [ih f B (by simp at hfuel ⊢; omega)
        (fun i hi => by simpa using h1 (i+1) (by simpa using Nat.succ_lt_succ hi)) h2]
      simp

theorem pyReplace_single (pat rep A B : List Char) (hne : pat ≠ [])
    (h1 : ∀ i, i < A.length → pat.isPrefixOf ((A ++ pat ++ B).drop i) = false)
    (h2 : ∀ i, pat.isPrefixOf (B.drop i) = false) :
    pyReplace (A ++ pat ++ B) pat rep = A ++ rep ++ B := by
  cases pat with
  | nil => exact absurd rfl hne
  | cons p0 ps =>
    exact replGo_single p0 ps rep A (A ++ (p0 :: ps) ++ B).length B (le_refl _) h1 h2

theorem containsSub_of_mid (A pat B : List Char) : containsSub (A ++ pat ++ B) pat = true := by
  unfold containsSub
  rw [List.any_eq_true]
  refine ⟨A.length, List.mem_range.mpr ?_, ?_⟩
  · simp
    omega
  · rw [show A ++ pat ++ B = A ++ (pat ++ B) by simp, List.drop_left]
    exact isPrefixOf_append_self _ _

theorem containsSub_false_no_pref (t pat : List Char) (hne : pat ≠ [])
    (h : containsSub t pat = false) : ∀ i, pat.isPrefixOf (t.drop i) = false := by
  intro i
  by_cases hi : i ≤ t.length
  · have hall := List.any_eq_false.mp h
    exact Bool.eq_false_iff.mpr (hall i (List.mem_range.mpr (by omega)))
  · rw [List.drop_eq_nil_of_le (by omega)]
    cases pat with
    | nil => exact absurd rfl hne
    | cons p0 ps => rfl

/-! ### Character facts and the decimal-counter string -/

theorem isDigit_toNat {c : Char} (h : c.isDigit = true) : 48 ≤ c.toNat ∧ c.toNat ≤ 57 := by
  simp only [Char.isDigit, Bool.and_eq_true, decide_eq_true_eq] at h
  obtain ⟨h1, h2⟩ := h
  have h1b : (48 : UInt32) ≤ c.val := h1
  rw [UInt32.le_def, BitVec.le_def] at h1b h2
  exact ⟨h1b, h2⟩

theorem ne_of_toNat_ne {c d : Char} (h : c.toNat ≠ d.toNat) : c ≠ d :=
  fun he => h (he ▸ rfl)

theorem ascii_ne_zwb {c : Char} (h : c.toNat < 128) : c ≠ zwb :=
  ne_of_toNat_ne (by rw [show zwb.toNat = 8203 from rfl]; omega)

theorem ascii_ne_zwc {c : Char} (h : c.toNat < 128) : c ≠ zwc :=
  ne_of_toNat_ne (by rw [show zwc.toNat = 8204 from rfl]; omega)

theorem ascii_ne_zwd {c : Char} (h : c.toNat < 128) : c ≠ zwd :=
  ne_of_toNat_ne (by rw [show zwd.toNat = 8205 from rfl]; omega)

theorem digit_ne_zwb {c : Char} (h : c.isDigit = true) : c ≠ zwb :=
  ascii_ne_zwb (by have := isDigit_toNat h; omega)

theorem digit_ne_zwc {c : Char} (h : c.isDigit = true) : c ≠ zwc :=
  ascii_ne_zwc (by have := isDigit_toNat h; omega)

theorem digit_ascii {c : Char} (h : c.isDigit = true) : c.toNat < 128 := by
  have := isDigit_toNat h
  omega

theorem decStrGo_fuel_irrel :
    ∀ (f1 f2 n : Nat), n ≤ f1 → n ≤ f2 → decStrGo f1 n = decStrGo f2 n := by
  intro f1
  induction f1 with
  | zero =>
    intro f2 n h1 _
    have : n = 0 := Nat.le_zero.mp h1
    subst this
    cases f2 with
    | zero => rfl
    | succ g => simp [decStrGo]
  | succ g1 ih =>
    intro f2 n h1 h2
    cases f2 with
    | zero =>
      have : n = 0 := Nat.le_zero.mp h2
      subst this
      simp [decStrGo]
    | succ g2 =>
      by_cases hn : n < 10
      · simp [decStrGo, hn]
      · simp only [decStrGo, hn, if_false]
        have hd : n / 10 < n := Nat.div_lt_self (by omega) (by omega)
        rw [ih g2 (n / 10) (by omega) (by omega)]

theorem decStr_eq (n : Nat) :
    decStr n = if n < 10 then [digChar n] else decStr (n / 10) ++ [digChar (n % 10)] := by
  unfold decStr
  by_cases hn : n < 10
  · cases n with
    | zero => simp [decStrGo, hn]
    | succ m => simp [decStrGo, hn]
  · have hpos : n ≠ 0 := by omega
    cases n with
    | zero => exact absurd rfl hpos
    | succ m =>
      simp only [decStrGo, hn, if_false]
      have hd : (m + 1) / 10 < m + 1 := Nat.div_lt_self (by omega) (by omega)
      rw [decStrGo_fuel_irrel m ((m+1)/10) ((m+1)/10) (by omega) (le_refl _)]

theorem digChar_isDigit {d : Nat} (h : d < 10) : (digChar d).isDigit = true := by
  have hall : ∀ x : Fin 10, (digChar x.val).isDigit = true := by decide
  exact hall ⟨d, h⟩

theorem decStr_digits (n : Nat) : ∀ c ∈ decStr n, c.isDigit = true := by
  induction n using Nat.strong_induction_on with
  | _ n ih =>
    rw [decStr_eq]
    by_cases hn : n < 10
    · simp only [hn, if_true]
      intro c hc
      rw [List.mem_singleton] at hc
      exact hc ▸ digChar_isDigit hn
    · simp only [hn, if_false]
      intro c hc
      rcases List.mem_append.mp hc with h | h
      · exact ih (n / 10) (Nat.div_lt_self (by omega) (by omega)) c h
      · rw [List.mem_singleton] at h
        exact h ▸ digChar_isDigit (Nat.mod_lt _ (by omega))

theorem decStr_ne_nil (n : Nat) : decStr n ≠ [] := by
  rw [decStr_eq]
  by_cases hn : n < 10 <;> simp [hn]

theorem digChar_inj {a b : Nat} (ha : a < 10) (hb : b < 10) (h : digChar a = digChar b) :
    a = b := by
  have hall : ∀ x y : Fin 10, digChar x.val = digChar y.val → x.val = y.val := by decide
  exact hall ⟨a, ha⟩ ⟨b, hb⟩ h

theorem append_singleton_inj {l1 l2 : List Char} {x y : Char}
    (h : l1 ++ [x] = l2 ++ [y]) : l1 = l2 ∧ x = y := by
  have hr := congrArg List.reverse h
  simp only [List.reverse_append, List.reverse_cons, List.reverse_nil, List.nil_append,
    List.singleton_append, List.cons.injEq] at hr
  exact ⟨by rw [← List.reverse_reverse l1, hr.2, List.reverse_reverse], hr.1⟩

theorem decStr_inj : ∀ a b : Nat, decStr a = decStr b → a = b := by
  intro a
  induction a using Nat.strong_induction_on with
  | _ a ih =>
    intro b h
    rw [decStr_eq a, decStr_eq b] at h
    by_cases ha : a < 10 <;> by_cases hb : b < 10
    · simp only [ha, hb, if_true, List.cons.injEq] at h
      exact digChar_inj ha hb h.1
    · simp only [ha, hb, if_true, if_false] at h
      have := decStr_ne_nil (b / 10)
      cases hq : decStr (b / 10) with
      | nil => exact absurd hq this
      | cons q qs => rw [hq] at h; simp at h
    · simp only [ha, hb, if_false, if_true] at h
      have := decStr_ne_nil (a / 10)
      cases hq : decStr (a / 10) with
      | nil => exact absurd hq this
      | cons q qs => rw [hq] at h; simp at h
    · simp only [ha, hb, if_false] at h
      obtain ⟨h1, h2⟩ := append_singleton_inj h
      have hdiv : a / 10 = b / 10 :=
        ih (a / 10) (Nat.div_lt_self (by omega) (by omega)) (b / 10) h1
      have hmod : a % 10 = b % 10 :=
        digChar_inj (Nat.mod_lt _ (by omega)) (Nat.mod_lt _ (by omega)) h2
      omega

/-! ### Parsing of constructed placeholders -/

theorem charAt_of_drop {t : List Char} {i : Nat} {c : Char} {r : List Char}
    (h : t.drop i = c :: r) : charAt t i = c ∧ i < t.length := by
  have hlen : i < t.length := by
    have := congrArg List.length h
    simp at this
    omega
  have hget : t[i]? = some c := by
    have := List.getElem?_drop t i 0
    rw [h] at this
    simpa using this.symm
  refine ⟨?_, hlen⟩
  unfold charAt
  rw [List.getD_eq_getElem?_getD, hget]
  rfl

theorem isCharAt_of_drop {t : List Char} {i : Nat} {c : Char} {r : List Char}
    (h : t.drop i = c :: r) : isCharAt t i c = true := by
  obtain ⟨h1, h2⟩ := charAt_of_drop h
  simp [isCharAt, h1, h2]

theorem isCharAt_ne_of_drop {t : List Char} {i : Nat} {c d : Char} {r : List Char}
    (h : t.drop i = c :: r) (hne : c ≠ d) : isCharAt t i d = false := by
  obtain ⟨h1, _⟩ := charAt_of_drop h
  simp [isCharAt, h1, hne]

theorem runGo_exact {f : Char → Bool} {d : List Char} {s : Char} {r : List Char}
    (hd : ∀ c ∈ d, f c = true) (hs : f s = false) : runGo f (d ++ s :: r) = d.length := by
  induction d with
  | nil => simp [runGo, hs]
  | cons c d2 ih =>
    rw [List.cons_append, show runGo f (c :: (d2 ++ s :: r))
          = if f c then runGo f (d2 ++ s :: r) + 1 else 0 from rfl]
    rw [hd c (List.mem_cons_self _ _), if_pos rfl,
      ih (fun x hx => hd x (List.mem_cons_of_mem _ hx))]
    rfl

theorem runLen_of_drop {f : Char → Bool} {t : List Char} {p : Nat} {d : List Char} {s : Char}
    {r : List Char} (h : t.drop p = d ++ s :: r) (hd : ∀ c ∈ d, f c = true)
    (hs : f s = false) : runLen f t p = d.length := by
  unfold runLen
  rw [h]
  exact runGo_exact hd hs

theorem drop_add {t : List Char} {i j : Nat} : t.drop (i + j) = (t.drop i).drop j := by
  rw [List.drop_drop, Nat.add_comm]

theorem lazyGoF_finds :
    ∀ (T1 : List Char) (fuel j : Nat) (t rest : List Char), T1 ≠ [] →
      (∀ c ∈ T1, c ≠ '\n' ∧ c ≠ zwd) → t.drop j = T1 ++ zwd :: rest →
      T1.length ≤ fuel → lazyGoF fuel t j = some (j + T1.length) := by
  intro T1
  induction T1 with
  | nil => intro fuel j t rest hne; exact absurd rfl hne
  | cons a T2 ih =>
    intro fuel j t rest _ hch hdrop hfuel
    have ha := hch a (List.mem_cons_self _ _)
    cases fuel with
    | zero => simp at hfuel
    | succ f =>
      have hdropa : t.drop j = a :: (T2 ++ zwd :: rest) := by simpa using hdrop
      have hj : j < t.length := (charAt_of_drop hdropa).2
      have hnl : isCharAt t j '\n' = false := isCharAt_ne_of_drop hdropa ha.1
      have hdrop1 : t.drop (j + 1) = T2 ++ zwd :: rest := by
        rw [drop_add, hdropa]
        rfl
      rw [show lazyGoF (f+1) t j
            = if isCharAt t j '\n' then none
              else if j < t.length then
                (if isCharAt t (j+1) zwd then some (j+1) else lazyGoF f t (j+1))
              else none from rfl]
      rw [hnl]
      simp only [Bool.false_eq_true, if_false, hj, if_true]
      cases T2 with
      | nil =>
        have : isCharAt t (j+1) zwd = true := isCharAt_of_drop (by simpa using hdrop1)
        rw [this]
        simp
      | cons b T3 =>
        have hb := hch b (List.mem_cons_of_mem _ (List.mem_cons_self _ _))
        have : isCharAt t (j+1) zwd = false :=
          isCharAt_ne_of_drop (by simpa using hdrop1) hb.2
        rw [this]
        simp only [Bool.false_eq_true, if_false]
        rw [ih f (j+1) t rest (by simp)
          (fun c hc => hch c (List.mem_cons_of_mem _ hc)) hdrop1 (by simp at hfuel ⊢; omega)]
        simp only [List.length_cons]
        congr 1
        omega

theorem lazyGoF_newline :
    ∀ (T1 : List Char) (fuel j : Nat) (t rest : List Char), '\n' ∈ T1 →
      (∀ c ∈ T1, c ≠ zwd) → t.drop j = T1 ++ zwd :: rest →
      lazyGoF fuel t j = none := by
  intro T1
  induction T1 with
  | nil => intro fuel j t rest hmem; cases hmem
  | cons a T2 ih =>
    intro fuel j t rest hmem hch hdrop
    have hdropa : t.drop j = a :: (T2 ++ zwd :: rest) := by simpa using hdrop
    cases fuel with
    | zero => rfl
    | succ f =>
      rw [show lazyGoF (f+1) t j
            = if isCharAt t j '\n' then none
              else if j < t.length then
                (if isCharAt t (j+1) zwd then some (j+1) else lazyGoF f t (j+1))
              else none from rfl]
      by_cases ha : a = '\n'
      · rw [isCharAt_of_drop (ha ▸ hdropa)]
        simp
      · have hmem2 : '\n' ∈ T2 := by
          rcases List.mem_cons.mp hmem with h | h
          · exact absurd h.symm ha
          · exact h
        have hnl : isCharAt t j '\n' = false := isCharAt_ne_of_drop hdropa ha
        rw [hnl]
        simp only [Bool.false_eq_true, if_false, (charAt_of_drop hdropa).2, if_true]
        have hdrop1 : t.drop (j + 1) = T2 ++ zwd :: rest := by
          rw [drop_add, hdropa]
          rfl
        cases hT2 : T2 with
        | nil => rw [hT2] at hmem2; cases hmem2
        | cons b T3 =>
          have hb : b ≠ zwd := by
            refine hch b ?_
            rw [hT2]
            exact List.mem_cons_of_mem _ (List.mem_cons_self _ _)
          have : isCharAt t (j+1) zwd = false :=
            isCharAt_ne_of_drop (by rw [hdrop1, hT2]; rfl) hb
          rw [this]
          simp only [Bool.false_eq_true, if_false]
          exact ih f (j+1) t rest hmem2 (fun c hc => hch c (List.mem_cons_of_mem _ hc))
            (hT2 ▸ hdrop1)

theorem charAt_mem {l : List Char} {p : Nat} (h : p < l.length) : charAt l p ∈ l := by
  unfold charAt
  rw [List.getD_eq_getElem?_getD, List.getElem?_eq_getElem h]
  exact List.getElem_mem h

theorem isCharAt_false_of_all_ne {l : List Char} {x : Char} (h : ∀ ch ∈ l, ch ≠ x)
    (p : Nat) : isCharAt l p x = false := by
  unfold isCharAt
  by_cases hp : p < l.length
  · have := h (charAt l p) (charAt_mem hp)
    simp [this]
  · simp [hp]

theorem isCharAt_cons_succ (c : Char) (l : List Char) (p : Nat) (x : Char) :
    isCharAt (c :: l) (p + 1) x = isCharAt l p x := by
  unfold isCharAt charAt
  simp [Nat.succ_lt_succ_iff]

theorem phW_tail_ne_zwb {c : Nat} {T : List Char} (hT : AsciiL T) :
    ∀ ch ∈ decStr c ++ zwc :: (T ++ [zwd]), ch ≠ zwb := by
  intro ch hch
  rcases List.mem_append.mp hch with h | h
  · exact digit_ne_zwb (decStr_digits c ch h)
  · rcases List.mem_cons.mp h with rfl | h2
    · exact ne_of_toNat_ne (by decide)
    · rcases List.mem_append.mp h2 with h3 | h3
      · exact ascii_ne_zwb (hT ch h3)
      · rw [List.mem_singleton] at h3
        subst h3
        exact ne_of_toNat_ne (by decide)

theorem phMatchAt_phW_ge1 {c : Nat} {T : List Char} (hT : AsciiL T) (p : Nat) :
    phMatchAt (phW c T) (p + 1) = none := by
  unfold phMatchAt
  have : isCharAt (phW c T) (p + 1) zwb = false := by
    rw [show phW c T = zwb :: (decStr c ++ zwc :: (T ++ [zwd])) from rfl,
      isCharAt_cons_succ]
    exact isCharAt_false_of_all_ne (phW_tail_ne_zwb hT) p
  rw [this]
  simp

theorem phMatchAt_phW_pos {c : Nat} {T : List Char} (hTne : T ≠ []) (hT : AsciiL T)
    (hTn : '\n' ∉ T) : phMatchAt (phW c T) 0 = some (decStr c, T) := by
  have hdrop1 : (phW c T).drop 1 = decStr c ++ zwc :: (T ++ [zwd]) := rfl
  have hd : runLen Char.isDigit (phW c T) 1 = (decStr c).length :=
    runLen_of_drop hdrop1 (decStr_digits c) (by decide)
  have hdlen : 1 ≤ (decStr c).length := by
    cases hq : decStr c with
    | nil => exact absurd hq (decStr_ne_nil c)
    | cons q qs => simp
  have hdrop1d : (phW c T).drop (1 + (decStr c).length) = zwc :: (T ++ [zwd]) := by
    rw [drop_add, hdrop1, List.drop_left]
  have hdrop2d : (phW c T).drop (2 + (decStr c).length) = T ++ [zwd] := by
    rw [show 2 + (decStr c).length = (1 + (decStr c).length) + 1 by omega, drop_add, hdrop1d]
    rfl
  have hzwc : isCharAt (phW c T) (1 + (decStr c).length) zwc = true :=
    isCharAt_of_drop hdrop1d
  have hlazy : lazyGo (phW c T) (2 + (decStr c).length) = some (2 + (decStr c).length + T.length) := by
    unfold lazyGo
    refine lazyGoF_finds T _ _ _ [] hTne
      (fun ch hch => ⟨fun he => hTn (he ▸ hch), ascii_ne_zwd (hT ch hch)⟩)
      (by rw [hdrop2d]) ?_
    have hlen : (phW c T).length = 1 + (decStr c).length + 1 + T.length + 1 := by
      simp [phW]
      omega
    omega
  unfold phMatchAt
  rw [show isCharAt (phW c T) 0 zwb = true from isCharAt_of_drop (t := phW c T) (i := 0) rfl]
  rw [if_pos rfl]
  simp only [Nat.zero_add, hd]
  rw [show (decide (1 ≤ (decStr c).length) && isCharAt (phW c T) (1 + (decStr c).length) zwc)
        = true by simp [hzwc, hdlen]]
  rw [if_pos rfl]
  rw [hlazy]
  have hs1 : sliceTE (phW c T) 1 (1 + (decStr c).length) = decStr c := by
    unfold sliceTE
    rw [hdrop1]
    rw [show 1 + (decStr c).length - 1 = (decStr c).length by omega]
    exact List.take_left _ _
  have hs2 : sliceTE (phW c T) (2 + (decStr c).length) (2 + (decStr c).length + T.length) = T := by
    unfold sliceTE
    rw [hdrop2d]
    rw [show 2 + (decStr c).length + T.length - (2 + (decStr c).length) = T.length by omega]
    exact List.take_left _ _
  simp only [hs1, hs2]

theorem searchGo_none {t : List Char} (h : ∀ p, phMatchAt t p = none) :
    ∀ (fuel p : Nat), searchGo t fuel p = none := by
  intro fuel
  induction fuel with
  | zero => intro p; rfl
  | succ f ih =>
    intro p
    rw [show searchGo t (f+1) p
          = if p ≤ t.length then
              (match phMatchAt t p with
               | some r => some r
               | none => searchGo t f (p+1))
            else none from rfl]
    by_cases hp : p ≤ t.length
    · rw [if_pos hp, h p]
      exact ih (p+1)
    · rw [if_neg hp]

theorem searchPh_phW_pos {c : Nat} {T : List Char} (hTne : T ≠ []) (hT : AsciiL T)
    (hTn : '\n' ∉ T) : searchPh (phW c T) = some (decStr c, T) := by
  unfold searchPh
  rw [show searchGo (phW c T) ((phW c T).length + 1) 0
        = if 0 ≤ (phW c T).length then
            (match phMatchAt (phW c T) 0 with
             | some r => some r
             | none => searchGo (phW c T) ((phW c T).length) 1)
          else none from rfl]
  rw [if_pos (Nat.zero_le _), phMatchAt_phW_pos hTne hT hTn]

theorem searchPh_phW_newline {c : Nat} {T : List Char} (hT : AsciiL T)
    (hTn : '\n' ∈ T) : searchPh (phW c T) = none := by
  unfold searchPh
  refine searchGo_none ?_ _ _
  intro p
  cases p with
  | succ q => exact phMatchAt_phW_ge1 hT q
  | zero =>
    have hdrop1 : (phW c T).drop 1 = decStr c ++ zwc :: (T ++ [zwd]) := rfl
    have hd : runLen Char.isDigit (phW c T) 1 = (decStr c).length :=
      runLen_of_drop hdrop1 (decStr_digits c) (by decide)
    have hdrop1d : (phW c T).drop (1 + (decStr c).length) = zwc :: (T ++ [zwd]) := by
      rw [drop_add, hdrop1, List.drop_left]
    have hdrop2d : (phW c T).drop (2 + (decStr c).length) = T ++ [zwd] := by
      rw [show 2 + (decStr c).length = (1 + (decStr c).length) + 1 by omega, drop_add, hdrop1d]
      rfl
    have hlazy : lazyGo (phW c T) (2 + (decStr c).length) = none := by
      unfold lazyGo
      exact lazyGoF_newline T _ _ _ [] hTn
        (fun ch hch => ascii_ne_zwd (hT ch hch)) (by rw [hdrop2d])
    unfold phMatchAt
    rw [show isCharAt (phW c T) 0 zwb = true from isCharAt_of_drop (t := phW c T) (i := 0) rfl]
    rw [if_pos rfl]
    simp only [Nat.zero_add, hd]
    have hdlen : 1 ≤ (decStr c).length := by
      cases hq : decStr c with
      | nil => exact absurd hq (decStr_ne_nil c)
      | cons q qs => simp
    rw [show (decide (1 ≤ (decStr c).length)
          && isCharAt (phW c T) (1 + (decStr c).length) zwc) = true by
      simp [isCharAt_of_drop hdrop1d, hdlen]]
    rw [if_pos rfl]
    rw [hlazy]

/-! ### C5: degraded recovery -/

theorem foldl_fix {α β : Type} (f : α → β → α) (x : α) :
    ∀ (l : List β), (∀ b ∈ l, f x b = x) → l.foldl f x = x := by
  intro l
  induction l with
  | nil => intro _; rfl
  | cons b rest ih =>
    intro h
    rw [List.foldl_cons, h b (List.mem_cons_self _ _)]
    exact ih (fun y hy => h y (List.mem_cons_of_mem _ hy))

theorem pass1_noop {t : List Char} {m : List (List Char × List Char)}
    (h : ∀ pr ∈ m, containsSub t pr.1 = false) : pass1 t m = t := by
  unfold pass1
  refine foldl_fix _ _ m ?_
  intro pr hpr
  rw [h pr hpr]
  simp

theorem length_ne_of_decStr_append {n : Nat} {T : List Char} : decStr n ++ T ≠ T := by
  intro he
  have hl := congrArg List.length he
  simp only [List.length_append] at hl
  have : (decStr n).length = 0 := by omega
  exact decStr_ne_nil n (List.eq_nil_of_length_eq_zero this)

/-- C5: when a placeholder does not survive intact (no placeholder of the
map occurs in the translated text, so the exact pass is a no-op) but its
counter and original text remain adjacent in the translated text, the
degraded-recovery pass parses the placeholder, probes the candidates in
order, finds `counter+text`, and replaces it with the original span —
recovering the original text; inert earlier and later map entries leave
the text unchanged. -/
theorem degraded_recovery (pre post : List (List Char × List Char)) (n : Nat)
    (T a b : List Char) (hTne : T ≠ []) (hTa : AsciiL T) (hTn : '\n' ∉ T)
    (hintact : ∀ pr ∈ pre ++ [(phW n T, T)] ++ post,
        containsSub (a ++ (decStr n ++ T) ++ b) pr.1 = false)
    (hpre : ∀ pr ∈ pre,
        pass2step (a ++ (decStr n ++ T) ++ b) pr.1 pr.2 = a ++ (decStr n ++ T) ++ b)
    (hpost : ∀ pr ∈ post, pass2step (a ++ T ++ b) pr.1 pr.2 = a ++ T ++ b)
    (h1 : ∀ i, i < a.length →
        (decStr n ++ T).isPrefixOf ((a ++ (decStr n ++ T) ++ b).drop i) = false)
    (h2 : containsSub b (decStr n ++ T) = false) :
    restore_proper_nouns (a ++ (decStr n ++ T) ++ b) (pre ++ [(phW n T, T)] ++ post)
      = a ++ T ++ b := by
  have hpatne : decStr n ++ T ≠ [] := by
    intro he
    rcases List.append_eq_nil.mp he with ⟨he1, _⟩
    exact decStr_ne_nil n he1
  have hstep : pass2step (a ++ (decStr n ++ T) ++ b) (phW n T) T = a ++ T ++ b := by
    unfold pass2step
    rw [searchPh_phW_pos hTne hTa hTn]
    show tryCands (a ++ (decStr n ++ T) ++ b) T
      [decStr n ++ T, decStr n ++ ' ' :: T, T] = a ++ T ++ b
    rw [show tryCands (a ++ (decStr n ++ T) ++ b) T
          [decStr n ++ T, decStr n ++ ' ' :: T, T]
        = if containsSub (a ++ (decStr n ++ T) ++ b) (decStr n ++ T)
              && !((decStr n ++ T) == T) then
            pyReplace (a ++ (decStr n ++ T) ++ b) (decStr n ++ T) T
          else tryCands (a ++ (decStr n ++ T) ++ b) T [decStr n ++ ' ' :: T, T] from rfl]
    rw [containsSub_of_mid a (decStr n ++ T) b,
      beq_eq_false_iff_ne.mpr (length_ne_of_decStr_append (n := n) (T := T))]
    rw [show (true && !false) = true from rfl, if_pos rfl]
    exact pyReplace_single (decStr n ++ T) T a b hpatne h1
      (containsSub_false_no_pref b (decStr n ++ T) hpatne h2)
  unfold restore_proper_nouns
  rw [pass1_noop hintact]
  unfold pass2
  rw [List.foldl_append, List.foldl_append]
  rw [foldl_fix _ _ pre hpre]
  rw [show List.foldl (fun acc pr => pass2step acc pr.1 pr.2)
        (a ++ (decStr n ++ T) ++ b) [(phW n T, T)]
      = pass2step (a ++ (decStr n ++ T) ++ b) (phW n T) T from rfl]
  rw [hstep]
  exact foldl_fix _ _ post hpost

/-- Witness for C5: the placeholder for `"Alice"` (counter 0) was
stripped to `"0Alice"` inside the translated text; restoration recovers
`"Alice"`, while the inert entry for `"Bob"` changes nothing. -/
theorem degraded_recovery_witness :
    restore_proper_nouns ("x ".toList ++ (decStr 0 ++ "Alice".toList) ++ " y".toList)
        ([] ++ [(phW 0 ("Alice".toList), "Alice".toList)]
          ++ [(phW 1 ("Bob".toList), "Bob".toList)])
      = "x ".toList ++ "Alice".toList ++ " y".toList :=
  degraded_recovery [] [(phW 1 ("Bob".toList), "Bob".toList)] 0 ("Alice".toList)
    ("x ".toList) (" y".toList) (by decide) (by decide) (by decide) (by decide)
    (by decide) (by decide) (by decide) (by decide)

/-! ### C1: bounds of the webapp matchers -/

theorem classAt_lt {f : Char → Bool} {t : List Char} {i : Nat} (h : classAt f t i = true) :
    i < t.length := by
  unfold classAt at h
  rw [Bool.and_eq_true] at h
  exact of_decide_eq_true h.1

theorem isCharAt_lt {t : List Char} {i : Nat} {c : Char} (h : isCharAt t i c = true) :
    i < t.length := by
  unfold isCharAt at h
  rw [Bool.and_eq_true] at h
  exact of_decide_eq_true h.1

theorem wordAt_false_of_ge {t : List Char} {i : Nat} (h : t.length ≤ i) :
    wordAt t i = false := by
  unfold wordAt classAt
  have : ¬ (i < t.length) := by omega
  simp [this]

theorem bndAt_le {t : List Char} {p : Nat} (h : bndAt t p = true) : p ≤ t.length := by
  by_contra hgt
  push_neg at hgt
  have h1 : wordAt t p = false := wordAt_false_of_ge (by omega)
  have h2 : wordAt t (p - 1) = false := wordAt_false_of_ge (by omega)
  unfold bndAt at h
  rw [h1, h2] at h
  simp at h

theorem runGo_le (f : Char → Bool) : ∀ l : List Char, runGo f l ≤ l.length := by
  intro l
  induction l with
  | nil => simp [runGo]
  | cons c r ih =>
    rw [show runGo f (c :: r) = if f c then runGo f r + 1 else 0 from rfl]
    by_cases hc : f c = true <;> simp [hc] <;> omega

theorem runLen_le (f : Char → Bool) (t : List Char) (p : Nat) :
    runLen f t p ≤ t.length - p := by
  unfold runLen
  calc runGo f (t.drop p) ≤ (t.drop p).length := runGo_le f _
    _ = t.length - p := List.length_drop _ _

theorem mW1_ok {t : List Char} {p e : Nat} (h : mW1 t p = some e) :
    p < e ∧ e ≤ t.length := by
  unfold mW1 at h
  split at h
  · simp only [] at h
    split at h
    · split at h
      · rename_i h3
        rw [Bool.and_eq_true] at h3
        have hb := bndAt_le h3.2
        have he := Option.some.inj h
        omega
      · exact absurd h (by simp)
    · exact absurd h (by simp)
  · exact absurd h (by simp)

theorem tldLoop_ok {t : List Char} {m : Nat} :
    ∀ (k e : Nat), tldLoop t m k = some e → m + 2 ≤ e ∧ bndAt t e = true := by
  intro k
  induction k using Nat.strong_induction_on with
  | _ k ih =>
    intro e h
    match k with
    | 0 => exact absurd h (by simp [tldLoop])
    | 1 => exact absurd h (by simp [tldLoop])
    | k2 + 2 =>
      rw [show tldLoop t m (k2+2)
            = if bndAt t (m+k2+2) then some (m+k2+2) else tldLoop t m (k2+1) from rfl] at h
      by_cases hb : bndAt t (m+k2+2) = true
      · rw [if_pos hb] at h
        have he := Option.some.inj h
        exact ⟨by omega, he ▸ hb⟩
      · rw [if_neg (by simpa using hb)] at h
        exact ih (k2+1) (by omega) e h

theorem domLoop_ok {t : List Char} {a : Nat} :
    ∀ (j e : Nat), domLoop t a j = some e → a ≤ e ∧ bndAt t e = true := by
  intro j
  induction j with
  | zero => intro e h; exact absurd h (by simp [domLoop])
  | succ j2 ih =>
    intro e h
    rw [show domLoop t a (j2+1)
          = match (if isCharAt t (a+j2+1) '.' then
                tldLoop t (a+j2+2) (runLen tldC t (a+j2+2)) else none) with
            | some e2 => some e2
            | none => domLoop t a j2 from rfl] at h
    by_cases hdot : isCharAt t (a+j2+1) '.' = true
    · rw [if_pos hdot] at h
      cases htld : tldLoop t (a+j2+2) (runLen tldC t (a+j2+2)) with
      | none => rw [htld] at h; exact ih e h
      | some e2 =>
        rw [htld] at h
        have he := Option.some.inj h
        subst he
        have := tldLoop_ok _ _ htld
        exact ⟨by omega, this.2⟩
    · rw [if_neg (by simpa using hdot)] at h
      exact ih e h

theorem mW2_ok {t : List Char} {p e : Nat} (h : mW2 t p = some e) :
    p < e ∧ e ≤ t.length := by
  unfold mW2 at h
  split at h
  · simp only [] at h
    split at h
    · have := domLoop_ok _ _ h
      rename_i h2
      rw [Bool.and_eq_true] at h2
      exact ⟨by omega, bndAt_le this.2⟩
    · exact absurd h (by simp)
  · exact absurd h (by simp)

theorem altSuffix_ok {t : List Char} {i : Nat} :
    ∀ (L : List (List Char)) (e : Nat), altSuffix t i L = some e →
      i ≤ e ∧ bndAt t e = true := by
  intro L
  induction L with
  | nil => intro e h; exact absurd h (by simp [altSuffix])
  | cons l rest ih =>
    intro e h
    rw [show altSuffix t i (l :: rest)
          = if icaseAt t i l && bndAt t (i + l.length) then some (i + l.length)
            else altSuffix t i rest from rfl] at h
    by_cases hc : (icaseAt t i l && bndAt t (i + l.length)) = true
    · rw [if_pos hc] at h
      have he := Option.some.inj h
      rw [Bool.and_eq_true] at hc
      exact ⟨by omega, he ▸ hc.2⟩
    · rw [if_neg (by simpa using hc)] at h
      exact ih e h

theorem sufTry_ok {t : List Char} {pos e : Nat} (h : sufTry t pos = some e) :
    pos < e ∧ bndAt t e = true := by
  unfold sufTry at h
  split at h
  · have := altSuffix_ok sufLits e h
    exact ⟨by omega, this.2⟩
  · exact absurd h (by simp)

theorem starBack_ok {t : List Char} :
    ∀ (L : List Nat) (e : Nat), starBack t L = some e →
      (∃ pos ∈ L, pos < e) ∧ bndAt t e = true := by
  intro L
  induction L with
  | nil => intro e h; exact absurd h (by simp [starBack])
  | cons pos rest ih =>
    intro e h
    rw [show starBack t (pos :: rest)
          = match sufTry t pos with
            | some e2 => some e2
            | none => starBack t rest from rfl] at h
    cases hs : sufTry t pos with
    | some e2 =>
      rw [hs] at h
      have he := Option.some.inj h
      subst he
      have := sufTry_ok hs
      exact ⟨⟨pos, List.mem_cons_self _ _, this.1⟩, this.2⟩
    | none =>
      rw [hs] at h
      obtain ⟨⟨q, hq, hqe⟩, hb⟩ := ih e h
      exact ⟨⟨q, List.mem_cons_of_mem _ hq, hqe⟩, hb⟩

theorem unitEndsF_ge {t : List Char} :
    ∀ (fuel q : Nat), ∀ x ∈ unitEndsF fuel t q, q < x := by
  intro fuel
  induction fuel with
  | zero => intro q x hx; cases hx
  | succ f ih =>
    intro q x hx
    rw [show unitEndsF (f+1) t q
          = if classAt wsC t q then
              if alphaAt t (q+1) && decide (1 ≤ runLen Char.isAlpha t (q+2)) then
                (q + 2 + runLen Char.isAlpha t (q+2))
                  :: unitEndsF f t (q + 2 + runLen Char.isAlpha t (q+2))
              else []
            else [] from rfl] at hx
    by_cases h1 : classAt wsC t q = true
    · rw [if_pos h1] at hx
      by_cases h2 : (alphaAt t (q+1) && decide (1 ≤ runLen Char.isAlpha t (q+2))) = true
      · rw [if_pos h2] at hx
        rcases List.mem_cons.mp hx with rfl | hx2
        · omega
        · have := ih _ x hx2
          omega
      · rw [if_neg (by simpa using h2)] at hx
        cases hx
    · rw [if_neg (by simpa using h1)] at hx
      cases hx

theorem mW3_ok {t : List Char} {p e : Nat} (h : mW3 t p = some e) :
    p < e ∧ e ≤ t.length := by
  unfold mW3 at h
  split at h
  · simp only [] at h
    split at h
    · obtain ⟨⟨pos, hpos, hpe⟩, hb⟩ := starBack_ok _ e h
      rw [List.mem_reverse] at hpos
      have hgt : p < pos := by
        rcases List.mem_cons.mp hpos with rfl | h2
        · omega
        · have := unitEndsF_ge _ _ pos h2
          omega
      exact ⟨by omega, bndAt_le hb⟩
    · exact absurd h (by simp)
  · exact absurd h (by simp)

theorem fidGo_mem {mf : List Char → Nat → Option Nat} {t : List Char}
    (hok : ∀ p e, mf t p = some e → p < e ∧ e ≤ t.length) :
    ∀ (fuel p : Nat), ∀ x ∈ fidGo mf t fuel p, x.1 < x.2 ∧ x.2 ≤ t.length := by
  intro fuel
  induction fuel with
  | zero => intro p x hx; cases hx
  | succ f ih =>
    intro p x hx
    rw [show fidGo mf t (f+1) p
          = if p ≤ t.length then
              match mf t p with
              | some e => if p < e then (p, e) :: fidGo mf t f e else []
              | none => fidGo mf t f (p+1)
            else [] from rfl] at hx
    by_cases hp : p ≤ t.length
    · rw [if_pos hp] at hx
      cases hm : mf t p with
      | some e =>
        simp only [hm] at hx
        by_cases hpe : p < e
        · rw [if_pos hpe] at hx
          rcases List.mem_cons.mp hx with rfl | hx2
          · exact hok p e hm
          · exact ih e x hx2
        · rw [if_neg hpe] at hx
          cases hx
      | none =>
        simp only [hm] at hx
        exact ih (p+1) x hx
    · rw [if_neg hp] at hx
      cases hx

theorem webRaw_valid {t : List Char} : ∀ x ∈ webRawMatches t, x.1 < x.2 ∧ x.2 ≤ t.length := by
  intro x hx
  unfold webRawMatches at hx
  rw [List.mem_flatten] at hx
  obtain ⟨l, hl, hxl⟩ := hx
  rw [List.mem_map] at hl
  obtain ⟨mf, hmf, rfl⟩ := hl
  simp only [List.mem_cons, List.not_mem_nil, or_false] at hmf
  rcases hmf with rfl | rfl | rfl
  · exact fidGo_mem (fun p e h => mW1_ok h) _ _ x hxl
  · exact fidGo_mem (fun p e h => mW2_ok h) _ _ x hxl
  · exact fidGo_mem (fun p e h => mW3_ok h) _ _ x hxl

/-! ### C1: sorting and well-formedness of the replacement list -/

theorem insDesc_perm (m : Nat × Nat) :
    ∀ l : List (Nat × Nat), (insDesc m l).Perm (m :: l) := by
  intro l
  induction l with
  | nil => exact List.Perm.refl _
  | cons x xs ih =>
    rw [show insDesc m (x :: xs)
          = if x.1 < m.1 then m :: x :: xs else x :: insDesc m xs from rfl]
    by_cases hc : x.1 < m.1
    · rw [if_pos hc]
    · rw [if_neg hc]
      exact (ih.cons x).trans (List.Perm.swap m x xs)

theorem sortDescAux_perm :
    ∀ (l acc : List (Nat × Nat)),
      (l.foldl (fun a m => insDesc m a) acc).Perm (acc ++ l) := by
  intro l
  induction l with
  | nil => intro acc; simp
  | cons m rest ih =>
    intro acc
    rw [List.foldl_cons]
    have h1 := ih (insDesc m acc)
    have h2 : (insDesc m acc ++ rest).Perm ((m :: acc) ++ rest) :=
      (insDesc_perm m acc).append_right rest
    have h3 : ((m :: acc) ++ rest).Perm (acc ++ m :: rest) := List.perm_middle.symm
    exact (h1.trans h2).trans h3

theorem sortDesc_perm (l : List (Nat × Nat)) : (sortDesc l).Perm l := by
  unfold sortDesc
  simpa using sortDescAux_perm l []

theorem insDesc_sorted {m : Nat × Nat} :
    ∀ {l : List (Nat × Nat)}, l.Pairwise (fun x y => y.1 ≤ x.1) →
      (insDesc m l).Pairwise (fun x y => y.1 ≤ x.1) := by
  intro l
  induction l with
  | nil => intro _; exact List.pairwise_singleton _ m
  | cons x xs ih =>
    intro h
    rw [List.pairwise_cons] at h
    obtain ⟨hx, hxs⟩ := h
    rw [show insDesc m (x :: xs)
          = if x.1 < m.1 then m :: x :: xs else x :: insDesc m xs from rfl]
    by_cases hc : x.1 < m.1
    · rw [if_pos hc, List.pairwise_cons]
      constructor
      · intro y hy
        rcases List.mem_cons.mp hy with rfl | hy2
        · omega
        · have := hx y hy2
          omega
      · rw [List.pairwise_cons]
        exact ⟨hx, hxs⟩
    · rw [if_neg hc, List.pairwise_cons]
      constructor
      · intro y hy
        have hy2 : y ∈ m :: xs := (insDesc_perm m xs).mem_iff.mp hy
        rcases List.mem_cons.mp hy2 with rfl | hy3
        · omega
        · exact hx y hy3
      · exact ih hxs

theorem sortDescAux_sorted :
    ∀ (l acc : List (Nat × Nat)), acc.Pairwise (fun x y => y.1 ≤ x.1) →
      (l.foldl (fun a m => insDesc m a) acc).Pairwise (fun x y => y.1 ≤ x.1) := by
  intro l
  induction l with
  | nil => intro acc h; exact h
  | cons m rest ih =>
    intro acc h
    rw [List.foldl_cons]
    exact ih _ (insDesc_sorted h)

theorem sortDesc_sorted (l : List (Nat × Nat)) :
    (sortDesc l).Pairwise (fun x y => y.1 ≤ x.1) := by
  unfold sortDesc
  exact sortDescAux_sorted l [] List.Pairwise.nil

theorem toDescOk :
    ∀ (ms : List (Nat × Nat)) (n : Nat),
      (∀ x ∈ ms, x.1 < x.2 ∧ x.2 ≤ n) →
      ms.Pairwise (fun x y => y.1 ≤ x.1) →
      ms.Pairwise (fun a b => overlapB a b = false) →
      DescOk ms n := by
  intro ms
  induction ms with
  | nil => intro n _ _ _; exact trivial
  | cons hd rest ih =>
    intro n hv hs ho
    obtain ⟨s, e⟩ := hd
    rw [List.pairwise_cons] at hs ho
    have hse := hv (s, e) (List.mem_cons_self _ _)
    have hends : ∀ x ∈ rest, x.2 ≤ s := by
      intro x hx
      have h1 : x.1 ≤ s := hs.1 x hx
      have h2 := ho.1 x hx
      simp only [overlapB, gt_iff_lt, Bool.and_eq_false_iff, decide_eq_false_iff_not,
        Nat.not_lt] at h2
      have := hse.1
      rcases h2 with h2 | h2 <;> omega
    refine ⟨hse.1, hse.2, hends, ih s ?_ hs.2 ho.2⟩
    intro x hx
    exact ⟨(hv x (List.mem_cons_of_mem _ hx)).1, hends x hx⟩

/-! ### C1: structure of the protected text -/

theorem sliceTE_of_take {t : List Char} {bb s e : Nat} (he : e ≤ (t.take bb).length) :
    sliceTE (t.take bb) s e = sliceTE t s e := by
  unfold sliceTE
  rw [List.drop_take, List.take_take]
  congr 1
  rw [List.length_take] at he
  omega

theorem take_slice_drop {X : List Char} {s e : Nat} (hse : s ≤ e) (he : e ≤ X.length) :
    X.take s ++ (sliceTE X s e ++ X.drop e) = X := by
  unfold sliceTE
  have h2 : (X.drop s).drop (e - s) = X.drop e := by
    rw [List.drop_drop]
    congr 1
    omega
  rw [← h2, List.take_append_drop]
  exact List.take_append_drop s X

theorem mkProt_nil (u0 : List Char) : mkProt u0 [] = u0 := by
  simp [mkProt]

theorem mkOrig_nil (u0 : List Char) : mkOrig u0 [] = u0 := by
  simp [mkOrig]

theorem mkProt_snoc (u0 : List Char) (ps : List (Nat × List Char × List Char))
    (x : Nat × List Char × List Char) :
    mkProt u0 (ps ++ [x]) = mkProt u0 ps ++ (phW x.1 x.2.1 ++ x.2.2) := by
  simp [mkProt]

theorem mkOrig_snoc (u0 : List Char) (ps : List (Nat × List Char × List Char))
    (x : Nat × List Char × List Char) :
    mkOrig u0 (ps ++ [x]) = mkOrig u0 ps ++ (x.2.1 ++ x.2.2) := by
  simp [mkOrig]

theorem mkProt_cons (u0 : List Char) (ps : List (Nat × List Char × List Char))
    (x : Nat × List Char × List Char) :
    mkProt u0 (x :: ps) = u0 ++ (phW x.1 x.2.1 ++ mkProt x.2.2 ps) := by
  simp [mkProt]

theorem sliceTE_ascii {t : List Char} (ht : AsciiL t) (s e : Nat) : AsciiL (sliceTE t s e) := by
  intro c hc
  exact ht c (List.mem_of_mem_drop (List.mem_of_mem_take hc))

theorem protFold_struct (t : List Char) (ht : AsciiL t) :
    ∀ (ms : List (Nat × Nat)) (X S : List Char)
      (mp : List (List Char × List Char)) (c0 bb : Nat),
      DescOk ms X.length → X = t.take bb →
      ∃ (u0 : List Char) (ps : List (Nat × List Char × List Char)),
        ms.foldl (protStepW t) (X ++ S, mp, c0)
          = (mkProt u0 ps ++ S, mp ++ (ps.map entryOfW).reverse, c0 + ms.length)
        ∧ mkOrig u0 ps = X
        ∧ AsciiL u0
        ∧ (∀ x ∈ ps, AsciiL x.2.1 ∧ AsciiL x.2.2 ∧ x.2.1 ≠ [])
        ∧ (∀ x ∈ ps, c0 ≤ x.1)
        ∧ (ps.map (fun x => x.1)).Nodup := by
  intro ms
  induction ms with
  | nil =>
    intro X S mp c0 bb _ hX
    refine ⟨X, [], by simp [mkProt], by simp [mkOrig], ?_, by simp, by simp, by simp⟩
    intro c hc
    exact ht c (List.mem_of_mem_take (hX ▸ hc))
  | cons hd rest ih =>
    intro X S mp c0 bb hD hX
    obtain ⟨s, e⟩ := hd
    obtain ⟨hse, heX, hends, hdesc⟩ := hD
    have hsX : s ≤ X.length := by omega
    have hstep : protStepW t (X ++ S, mp, c0) (s, e)
        = (X.take s ++ (phW c0 (sliceTE t s e) ++ X.drop e ++ S),
           mp ++ [(phW c0 (sliceTE t s e), sliceTE t s e)], c0 + 1) := by
      unfold protStepW protStep
      rw [List.take_append_of_le_length hsX, List.drop_append_of_le_length heX]
      simp [List.append_assoc]
    have hX2 : X.take s = t.take (min s bb) := by
      rw [hX, List.take_take]
    have hD2 : DescOk rest (X.take s).length := by
      have : (X.take s).length = s := by
        rw [List.length_take]
        omega
      rw [this]
      exact hdesc
    obtain ⟨u0, ps2, heq2, horig2, hu02, hps2, hcnt2, hnd2⟩ :=
      ih (X.take s) (phW c0 (sliceTE t s e) ++ X.drop e ++ S)
        (mp ++ [(phW c0 (sliceTE t s e), sliceTE t s e)]) (c0 + 1) (min s bb) hD2 hX2
    have hTslice : sliceTE t s e = sliceTE X s e := by
      rw [hX]
      exact (sliceTE_of_take (by rw [← hX]; exact heX)).symm
    have hTne : sliceTE t s e ≠ [] := by
      rw [hTslice]
      refine List.ne_nil_of_length_pos ?_
      unfold sliceTE
      rw [List.length_take, List.length_drop]
      omega
    refine ⟨u0, ps2 ++ [(c0, sliceTE t s e, X.drop e)], ?_, ?_, hu02, ?_, ?_, ?_⟩
    · rw [List.foldl_cons, hstep, heq2]
      simp only [Prod.mk.injEq]
      refine ⟨?_, ?_, by rw [List.length_cons]; omega⟩
      · rw [mkProt_snoc]
        simp [List.append_assoc]
      · rw [List.map_append]
        simp [entryOfW]
    · rw [mkOrig_snoc, horig2]
      show X.take s ++ (sliceTE t s e ++ X.drop e) = X
      rw [hTslice]
      exact take_slice_drop (by omega) heX
    · intro x hx
      rcases List.mem_append.mp hx with h2 | h2
      · exact hps2 x h2
      · rw [List.mem_singleton] at h2
        subst h2
      
        refine ⟨sliceTE_ascii ht s e, ?_, hTne⟩
        intro c hc
        exact ht c (List.mem_of_mem_take (hX ▸ List.mem_of_mem_drop hc))
    · intro x hx
      rcases List.mem_append.mp hx with h2 | h2
      · have := hcnt2 x h2
        omega
      · rw [List.mem_singleton] at h2
        subst h2
        exact le_refl c0
    · rw [List.map_append, List.nodup_append]
      refine ⟨hnd2, by simp, ?_⟩
      intro a ha hb
      simp only [List.map_cons, List.map_nil, List.mem_singleton] at hb
      subst hb
      rcases List.mem_map.mp ha with ⟨x, hx, hfx⟩
      have := hcnt2 x hx
      omega

/-! ### C1: placeholders are unambiguous in the protected text -/

theorem pref_false_of_head_ne {c : Nat} {T : List Char} {a : Char} {l : List Char}
    (ha : a ≠ zwb) : (phW c T).isPrefixOf (a :: l) = false := by
  show ((zwb == a) && (decStr c ++ zwc :: (T ++ [zwd])).isPrefixOf l) = false
  rw [beq_eq_false_iff_ne.mpr (fun h => ha h.symm)]
  simp

theorem ascii_append {a b : List Char} (ha : AsciiL a) (hb : AsciiL b) : AsciiL (a ++ b) := by
  intro c hc
  rcases List.mem_append.mp hc with h | h
  · exact ha c h
  · exact hb c h

theorem ascii_no_ph {c : Nat} {T l : List Char} (hl : AsciiL l) :
    ∀ i, (phW c T).isPrefixOf (l.drop i) = false := by
  intro i
  cases hd : l.drop i with
  | nil => rfl
  | cons a r =>
    have ha : a ∈ l := by
      refine List.mem_of_mem_drop (n := i) ?_
      rw [hd]
      exact List.mem_cons_self _ _
    exact pref_false_of_head_ne (ascii_ne_zwb (hl a ha))

theorem digit_sep :
    ∀ (d1 X d2 Y : List Char),
      (∀ ch ∈ d1, ch.isDigit = true) → (∀ ch ∈ d2, ch.isDigit = true) →
      (d1 ++ zwc :: X).isPrefixOf (d2 ++ zwc :: Y) = true →
      d1 = d2 ∧ X.isPrefixOf Y = true := by
  intro d1
  induction d1 with
  | nil =>
    intro X d2 Y _ h2 h
    cases d2 with
    | nil =>
      refine ⟨rfl, ?_⟩
      have hz : ((zwc == zwc) && X.isPrefixOf Y) = true := h
      simpa using hz
    | cons b d2t =>
      exfalso
      have hz : ((zwc == b) && X.isPrefixOf (d2t ++ zwc :: Y)) = true := h
      rw [Bool.and_eq_true] at hz
      exact digit_ne_zwc (h2 b (List.mem_cons_self _ _)) (beq_iff_eq.mp hz.1).symm
  | cons a d1t ih =>
    intro X d2 Y h1 h2 h
    cases d2 with
    | nil =>
      exfalso
      have hz : ((a == zwc) && (d1t ++ zwc :: X).isPrefixOf Y) = true := h
      rw [Bool.and_eq_true] at hz
      exact digit_ne_zwc (h1 a (List.mem_cons_self _ _)) (beq_iff_eq.mp hz.1)
    | cons b d2t =>
      have hz : ((a == b) && (d1t ++ zwc :: X).isPrefixOf (d2t ++ zwc :: Y)) = true := h
      rw [Bool.and_eq_true] at hz
      have hab := beq_iff_eq.mp hz.1
      obtain ⟨hd, hp⟩ := ih X d2t Y (fun ch hch => h1 ch (List.mem_cons_of_mem _ hch))
        (fun ch hch => h2 ch (List.mem_cons_of_mem _ hch)) hz.2
      rw [hab, hd]
      exact ⟨rfl, hp⟩

theorem zwd_sep :
    ∀ (T1 T2 R : List Char), AsciiL T1 → AsciiL T2 →
      (T1 ++ [zwd]).isPrefixOf (T2 ++ zwd :: R) = true → T1 = T2 := by
  intro T1
  induction T1 with
  | nil =>
    intro T2 R _ h2 h
    cases T2 with
    | nil => rfl
    | cons b T2t =>
      exfalso
      have hz : ((zwd == b) && ([] : List Char).isPrefixOf (T2t ++ zwd :: R)) = true := h
      rw [Bool.and_eq_true] at hz
      exact ascii_ne_zwd (h2 b (List.mem_cons_self _ _)) (beq_iff_eq.mp hz.1).symm
  | cons a T1t ih =>
    intro T2 R h1 h2 h
    cases T2 with
    | nil =>
      exfalso
      have hz : ((a == zwd) && (T1t ++ [zwd]).isPrefixOf R) = true := h
      rw [Bool.and_eq_true] at hz
      exact ascii_ne_zwd (h1 a (List.mem_cons_self _ _)) (beq_iff_eq.mp hz.1)
    | cons b T2t =>
      have hz : ((a == b) && (T1t ++ [zwd]).isPrefixOf (T2t ++ zwd :: R)) = true := h
      rw [Bool.and_eq_true] at hz
      have hT := ih T2t R (fun ch hch => h1 ch (List.mem_cons_of_mem _ hch))
        (fun ch hch => h2 ch (List.mem_cons_of_mem _ hch)) hz.2
      rw [beq_iff_eq.mp hz.1, hT]

theorem phW_pref {c1 c2 : Nat} {T1 T2 R : List Char} (h1 : AsciiL T1) (h2 : AsciiL T2)
    (h : (phW c1 T1).isPrefixOf (phW c2 T2 ++ R) = true) : c1 = c2 ∧ T1 = T2 := by
  have hh : ((zwb == zwb)
      && (decStr c1 ++ zwc :: (T1 ++ [zwd])).isPrefixOf
           ((decStr c2 ++ zwc :: (T2 ++ [zwd])) ++ R)) = true := h
  rw [Bool.and_eq_true] at hh
  have hh2 := hh.2
  rw [List.append_assoc, List.cons_append, List.append_assoc, List.singleton_append] at hh2
  obtain ⟨hd, hp⟩ := digit_sep (decStr c1) (T1 ++ [zwd]) (decStr c2) (T2 ++ zwd :: R)
    (decStr_digits c1) (decStr_digits c2) hh2
  exact ⟨decStr_inj _ _ hd, zwd_sep T1 T2 R h1 h2 hp⟩

theorem no_ph_in_ascii_prefix {c : Nat} {T u R : List Char} (hu : AsciiL u)
    {i : Nat} (hi : i < u.length) : (phW c T).isPrefixOf ((u ++ R).drop i) = false := by
  rw [List.drop_append_of_le_length (by omega), List.drop_eq_getElem_cons hi, List.cons_append]
  exact pref_false_of_head_ne (ascii_ne_zwb (hu _ (List.getElem_mem hi)))

theorem mkProt_no_ph {c : Nat} {T : List Char} (hT : AsciiL T) :
    ∀ (ps : List (Nat × List Char × List Char)) (u0 R : List Char),
      AsciiL u0 → (∀ x ∈ ps, AsciiL x.2.1 ∧ AsciiL x.2.2) →
      c ∉ ps.map (fun x => x.1) →
      ∀ i, i < (mkProt u0 ps).length →
        (phW c T).isPrefixOf ((mkProt u0 ps ++ R).drop i) = false := by
  intro ps
  induction ps with
  | nil =>
    intro u0 R hu0 _ _ i hi
    rw [mkProt_nil] at hi ⊢
    exact no_ph_in_ascii_prefix hu0 hi
  | cons x ps2 ih =>
    intro u0 R hu0 hxs hc i hi
    have hxm := hxs x (List.mem_cons_self _ _)
    rw [mkProt_cons] at hi ⊢
    rw [List.length_append, List.length_append] at hi
    rw [List.append_assoc]
    by_cases hiu : i < u0.length
    · exact no_ph_in_ascii_prefix hu0 hiu
    · push_neg at hiu
      obtain ⟨j, rfl⟩ : ∃ j, i = u0.length + j := ⟨i - u0.length, by omega⟩
      rw [List.drop_append]
      rw [List.append_assoc]
      rcases Nat.lt_or_ge j (phW x.1 x.2.1).length with hjW | hjW
      · rw [List.drop_append_of_le_length (le_of_lt hjW)]
        cases j with
        | zero =>
          rw [List.drop_zero]
          cases hp : (phW c T).isPrefixOf
              (phW x.1 x.2.1 ++ (mkProt x.2.2 ps2 ++ R)) with
          | false => rfl
          | true =>
            exfalso
            have hcx := (phW_pref hT hxm.1 hp).1
            refine hc ?_
            rw [hcx]
            exact List.mem_cons_self _ _
        | succ j2 =>
          have hlenW : (phW x.1 x.2.1).length
              = (decStr x.1 ++ zwc :: (x.2.1 ++ [zwd])).length + 1 := rfl
          have hjt : j2 < (decStr x.1 ++ zwc :: (x.2.1 ++ [zwd])).length := by omega
          rw [show (phW x.1 x.2.1).drop (j2+1)
                = (decStr x.1 ++ zwc :: (x.2.1 ++ [zwd])).drop j2 from rfl]
          rw [List.drop_eq_getElem_cons hjt, List.cons_append]
          exact pref_false_of_head_ne (phW_tail_ne_zwb hxm.1 _ (List.getElem_mem hjt))
      · obtain ⟨k, rfl⟩ : ∃ k, j = (phW x.1 x.2.1).length + k :=
          ⟨j - (phW x.1 x.2.1).length, by omega⟩
        rw [List.drop_append]
        refine ih x.2.2 R hxm.2 (fun y hy => hxs y (List.mem_cons_of_mem _ hy)) ?_ k (by omega)
        intro hmem
        exact hc (List.mem_cons_of_mem _ hmem)

/-! ### C1: the exact-match pass undoes the protection -/

theorem pass1_cons (t : List Char) (e : List Char × List Char)
    (m : List (List Char × List Char)) :
    pass1 t (e :: m) = pass1 (if containsSub t e.1 then pyReplace t e.1 e.2 else t) m := rfl

theorem phW_ne_nil (c : Nat) (T : List Char) : phW c T ≠ [] := by
  simp [phW]

theorem pass1_mkProt :
    ∀ (ps : List (Nat × List Char × List Char)) (u0 B : List Char),
      AsciiL u0 → (∀ x ∈ ps, AsciiL x.2.1 ∧ AsciiL x.2.2 ∧ x.2.1 ≠ []) → AsciiL B →
      (ps.map (fun x => x.1)).Nodup →
      pass1 (mkProt u0 ps ++ B) ((ps.map entryOfW).reverse) = mkOrig u0 ps ++ B := by
  intro ps
  induction ps using List.reverseRecOn with
  | nil =>
    intro u0 B _ _ _ _
    simp [pass1, mkProt, mkOrig]
  | append_singleton ps x ih =>
    intro u0 B hu0 hps hB hnd
    have hxm := hps x (List.mem_append_right _ (List.mem_singleton_self _))
    have hnotin : x.1 ∉ ps.map (fun y => y.1) := by
      rw [List.map_append, List.nodup_append] at hnd
      intro hmem
      exact hnd.2.2 hmem (by simp)
    have hndps : (ps.map (fun y => y.1)).Nodup := by
      rw [List.map_append, List.nodup_append] at hnd
      exact hnd.1
    have htext : mkProt u0 (ps ++ [x]) ++ B
        = mkProt u0 ps ++ phW x.1 x.2.1 ++ (x.2.2 ++ B) := by
      rw [mkProt_snoc]
      simp [List.append_assoc]
    have hcont : containsSub (mkProt u0 (ps ++ [x]) ++ B) (phW x.1 x.2.1) = true := by
      rw [htext]
      exact containsSub_of_mid _ _ _
    have hrepl : pyReplace (mkProt u0 (ps ++ [x]) ++ B) (phW x.1 x.2.1) x.2.1
        = mkProt u0 ps ++ x.2.1 ++ (x.2.2 ++ B) := by
      rw [htext]
      refine pyReplace_single _ _ _ _ (phW_ne_nil _ _) ?_ ?_
      · intro i hi
        rw [List.append_assoc]
        exact mkProt_no_ph hxm.1 ps u0 (phW x.1 x.2.1 ++ (x.2.2 ++ B)) hu0
          (fun y hy => ⟨(hps y (List.mem_append_left _ hy)).1,
            (hps y (List.mem_append_left _ hy)).2.1⟩)
          hnotin i hi
      · exact ascii_no_ph (ascii_append hxm.2.1 hB)
    rw [show ((ps ++ [x]).map entryOfW).reverse
          = entryOfW x :: (ps.map entryOfW).reverse by simp]
    rw [pass1_cons]
    simp only [entryOfW]
    rw [if_pos hcont, hrepl]
    rw [List.append_assoc, ← List.append_assoc x.2.1]
    rw [ih u0 (x.2.1 ++ x.2.2 ++ B) hu0 (fun y hy => hps y (List.mem_append_left _ hy))
      (ascii_append (ascii_append hxm.1 hxm.2.1) hB) hndps]
    rw [mkOrig_snoc]
    simp [List.append_assoc]

/-! ### C1: the degraded-recovery pass is inert on candidate-free texts -/

theorem pass2step_phW {t : List Char} {c : Nat} {T : List Char} (hTne : T ≠ [])
    (hTa : AsciiL T) (hfree : candsFree t (phW c T) = true) :
    pass2step t (phW c T) T = t := by
  by_cases hn : '\n' ∈ T
  · unfold pass2step
    rw [searchPh_phW_newline hTa hn]
  · unfold pass2step
    rw [searchPh_phW_pos hTne hTa hn]
    show tryCands t T [decStr c ++ T, decStr c ++ ' ' :: T, T] = t
    unfold candsFree at hfree
    rw [searchPh_phW_pos hTne hTa hn] at hfree
    rw [Bool.and_eq_true] at hfree
    have h1 : containsSub t (decStr c ++ T) = false := by
      have hx := hfree.1
      rwa [Bool.not_eq_true'] at hx
    have h2 : containsSub t (decStr c ++ ' ' :: T) = false := by
      have hx := hfree.2
      rwa [Bool.not_eq_true'] at hx
    simp [tryCands, h1, h2]

/-- C1: Protect-then-restore with identity translation is not lossless in
general (see the counterexample); it is lossless for every ASCII text for
which no placeholder's degraded candidates (`counter+text`,
`counter+" "+text`) already occur as substrings of the original text:
then restoring the unmodified protected text with the produced
preservation map returns the original text exactly. -/
theorem protect_restore_roundtrip_amended (t : List Char) (hA : AsciiL t)
    (hcol : ∀ pr ∈ (preserve_proper_nouns t).2, candsFree t pr.1 = true) :
    restore_proper_nouns (preserve_proper_nouns t).1 (preserve_proper_nouns t).2 = t := by
  have hvalid : ∀ x ∈ collectW t, x.1 < x.2 ∧ x.2 ≤ t.length := by
    intro x hx
    rcases collect_fold_subset _ [] x hx with h | h
    · cases h
    · exact webRaw_valid x h
  have hperm := sortDesc_perm (collectW t)
  have hsorted := sortDesc_sorted (collectW t)
  have hpw : (sortDesc (collectW t)).Pairwise (fun a b => overlapB a b = false) := by
    refine (List.Perm.pairwise_iff ?_ hperm).mpr
      (collect_fold_pairwise _ [] List.Pairwise.nil)
    intro a b hab
    rw [overlapB_symm]
    exact hab
  have hvalid2 : ∀ x ∈ sortDesc (collectW t), x.1 < x.2 ∧ x.2 ≤ t.length :=
    fun x hx => hvalid x (hperm.mem_iff.mp hx)
  have hdesc : DescOk (sortDesc (collectW t)) t.length :=
    toDescOk _ _ hvalid2 hsorted hpw
  obtain ⟨u0, ps, heq, horig, hu0, hps, _, hnd⟩ :=
    protFold_struct t hA (sortDesc (collectW t)) t [] [] 0 t.length hdesc
      (List.take_length t).symm
  simp only [List.append_nil, List.nil_append] at heq
  have hPM : preserve_proper_nouns t = (mkProt u0 ps, (ps.map entryOfW).reverse) := by
    unfold preserve_proper_nouns
    simp only [heq]
  have hp1 : pass1 (mkProt u0 ps) ((ps.map entryOfW).reverse) = t := by
    have hx := pass1_mkProt ps u0 [] hu0 hps (fun c hc => absurd hc (List.not_mem_nil c)) hnd
    simp only [List.append_nil] at hx
    rw [hx, horig]
  have hp2 : pass2 t ((ps.map entryOfW).reverse) = t := by
    unfold pass2
    refine foldl_fix _ _ _ ?_
    intro pr hpr
    rw [List.mem_reverse] at hpr
    rcases List.mem_map.mp hpr with ⟨x, hx, rfl⟩
    have hxm := hps x hx
    simp only [entryOfW]
    refine pass2step_phW hxm.2.2 hxm.1 ?_
    refine hcol (entryOfW x) ?_
    rw [hPM]
    show entryOfW x ∈ (ps.map entryOfW).reverse
    rw [List.mem_reverse]
    exact List.mem_map_of_mem _ hx
  rw [hPM]
  unfold restore_proper_nouns
  show pass2 (pass1 (mkProt u0 ps) ((ps.map entryOfW).reverse)) ((ps.map entryOfW).reverse) = t
  rw [hp1, hp2]

/-- C1 counterexample: for the text `Alice Brown x0Alice Brown` the match
spans do not overlap at all (there is a single match), yet protect followed
by restore on the unmodified protected text does not return the original
text: the degraded-recovery pass finds the candidate `0Alice Brown`
(counter `0` adjacent to `Alice Brown`) already present in the original
text and corrupts it to `Alice Brown xAlice Brown`. -/
theorem protect_restore_roundtrip_counterexample :
    (webRawMatches ("Alice Brown x0Alice Brown".toList)).Pairwise
        (fun a b => overlapB a b = false)
      ∧ restore_proper_nouns
          (preserve_proper_nouns ("Alice Brown x0Alice Brown".toList)).1
          (preserve_proper_nouns ("Alice Brown x0Alice Brown".toList)).2
        ≠ "Alice Brown x0Alice Brown".toList := by
  constructor
  · decide
  · decide

/-- C1 witness: the amended roundtrip theorem applied to the concrete text
`Alice Brown went home.`, whose two placeholders have no degraded
candidate occurring in the text. -/
theorem protect_restore_roundtrip_witness :
    restore_proper_nouns
        (preserve_proper_nouns ("Alice Brown went home.".toList)).1
        (preserve_proper_nouns ("Alice Brown went home.".toList)).2
      = "Alice Brown went home.".toList :=
  protect_restore_roundtrip_amended ("Alice Brown went home.".toList) (by decide) (by decide)
